import Mathlib

/-!
Verification of the tick-indexed liquidity model and swap engine of a
concentrated-liquidity AMM SDK, shallowly embedded from the Rust sources
(`src/entities/tick_list_data_provider.rs`, `src/entities/pool.rs`,
`src/extensions/tick_map.rs`).  Components of the repository that are only
referenced from those files (the `Tick` record, the list-backed lookup
trait, the bitmap word search, tick math and the swap loop) are modelled
from the specification and marked as such in their doc comments.
-/

namespace UniswapV3

/-- A single liquidity-boundary record.  Modelled from the spec: the `Tick`
entity itself is not under src/ (only its constructor calls are); per the
spec it is a record of a bounded signed index, an unsigned total liquidity
`liquidity_gross` and a signed delta `liquidity_net`. -/
structure Tick where
  index : Int
  liquidity_gross : Nat
  liquidity_net : Int
deriving Repr, DecidableEq

/-- The recoverable error kinds of the engine, from the spec's error-handling
design plus the construction-time token errors.  `FuelExhausted` is an
artifact of the embedding: the swap loop is bounded by the number of words
and initialized ticks between the current price and the limit, and the
embedding runs it on a conservative fuel bound. -/
inductive Error where
  | InvalidToken
  | InvalidTick (t : Int)
  | InvalidSqrtRatio
  | InsufficientLiquidity
  | ZeroNet
  | InvalidSpacing
  | ChainIdMismatch
  | EqualAddresses
  | NoTickData
  | LiquidityOverflow
  | FuelExhausted
deriving Repr, DecidableEq

/-- Lower bound of the tick domain (the spec's MIN_TICK). -/
def MIN_TICK : Int := -887272

/-- Upper bound of the tick domain (the spec's MAX_TICK). -/
def MAX_TICK : Int := 887272

/-- Modelled from the spec: TickMath's `get_sqrt_ratio_at_tick` is not under
src/.  The spec fixes its contract — a strictly monotonic closed-form map
from ticks in [MIN_TICK, MAX_TICK] to sqrt prices in
[MIN_SQRT_RATIO, MAX_SQRT_RATIO], failing `InvalidTick` out of range — but
not its numeric values, which no claim under verification depends on.  It is
modelled as the order isomorphism shifting the tick domain onto
[1, MAX_TICK - MIN_TICK + 1]. -/
def get_sqrt_ratio_at_tick (t : Int) : Except Error Nat :=
  if t < MIN_TICK ∨ MAX_TICK < t then .error (.InvalidTick t)
  else .ok (t + 887273).toNat

/-- Smallest representable sqrt price: the image of MIN_TICK. -/
def MIN_SQRT_RATIO : Nat := 1

/-- Largest representable sqrt price: the image of MAX_TICK. -/
def MAX_SQRT_RATIO : Nat := 1774545

/-- Modelled from the spec: TickMath's `get_tick_at_sqrt_ratio` is not under
src/.  Per the spec it returns the unique tick `t` with
`sqrtRatioAtTick t ≤ ratio < sqrtRatioAtTick (t+1)` (floor semantics) and
fails `InvalidSqrtRatio` outside the global price bound; with the
order-isomorphic price model this floor is exact. -/
def get_tick_at_sqrt_ratio (r : Nat) : Except Error Int :=
  if r < MIN_SQRT_RATIO ∨ MAX_SQRT_RATIO < r then .error .InvalidSqrtRatio
  else .ok ((r : Int) - 887273)

/-- Comparison used to sort ticks by index (the `sort_unstable_by_key` call
in `TickListDataProvider::new`). -/
def tickLE (a b : Tick) : Prop := a.index ≤ b.index

instance : DecidableRel tickLE := fun a b => Int.decLe a.index b.index

/-- The list-backed tick index, from src: a vector of ticks
(`TickListDataProvider<I>(Vec<Tick<I>>)`). -/
structure TickListDataProvider where
  ticks : List Tick
deriving Repr, DecidableEq

/-- `TickListDataProvider::new` from src: sorts the snapshot by tick index
and takes ownership.  The validation pass present in the upstream revision
is commented out in this source, so the constructor is total and the
`tick_spacing` argument is unused. -/
def TickListDataProvider.new (ticks : List Tick) (tick_spacing : Int) :
    TickListDataProvider :=
  let _ := tick_spacing
  ⟨ticks.insertionSort tickLE⟩

/-- `TickListDataProvider::update_tick` from src: fails `InvalidTick` when
the physical index is out of bounds; removes the entry when the supplied
tick has `liquidity_net == 0`; otherwise overwrites in place without
re-sorting.  The Rust method mutates `self`; the embedding passes the
provider state explicitly. -/
def TickListDataProvider.update_tick (p : TickListDataProvider) (index : Nat)
    (tick : Tick) : Except Error Unit × TickListDataProvider :=
  if p.ticks.length ≤ index then (.error (.InvalidTick 0), p)
  else if tick.liquidity_net = 0 then (.ok (), ⟨p.ticks.eraseIdx index⟩)
  else (.ok (), ⟨p.ticks.set index tick⟩)

/-- One probe of Rust `slice::binary_search_by_key` as called by
`push_tick`: `left`/`right` bracket the unresolved range; returns
`.inl mid` on an exact key match and `.inr left` when the range empties.
Fuel is an embedding artifact; `keys.length + 1` suffices. -/
def rustBinarySearchGo (keys : List Int) (target : Int) :
    Nat → Nat → Nat → Nat ⊕ Nat
  | 0, left, _ => .inr left
  | fuel + 1, left, right =>
    if left < right then
      let mid := left + (right - left) / 2
      let k := keys.getD mid 0
      if k < target then rustBinarySearchGo keys target fuel (mid + 1) right
      else if target < k then rustBinarySearchGo keys target fuel left mid
      else .inl mid
    else .inr left

/-- Rust `slice::binary_search_by_key` over the tick indices, as used by
`push_tick` (standard library code, modelled by its documented contract and
classic implementation). -/
def rustBinarySearch (keys : List Int) (target : Int) : Nat ⊕ Nat :=
  rustBinarySearchGo keys target (keys.length + 1) 0 keys.length

/-- `TickListDataProvider::push_tick` from src: finds the insertion point by
binary search on the tick index — reusing an existing position when the
index is already present — and inserts there.  Always returns `Ok`. -/
def TickListDataProvider.push_tick (p : TickListDataProvider) (tick : Tick) :
    Except Error Unit × TickListDataProvider :=
  let pos := match rustBinarySearch (p.ticks.map (·.index)) tick.index with
    | .inl idx => idx
    | .inr idx => idx
  (.ok (), ⟨p.ticks.insertIdx pos tick⟩)

/-- `TickListDataProvider::remove_tick` from src: fails `InvalidTick` when
the physical index is out of bounds, otherwise removes and returns the
entry at that index. -/
def TickListDataProvider.remove_tick (p : TickListDataProvider) (index : Nat)
    (tick_spacing : Int) : Except Error Tick × TickListDataProvider :=
  let _ := tick_spacing
  if p.ticks.length ≤ index then (.error (.InvalidTick 0), p)
  else (.ok (p.ticks.getD index ⟨0, 0, 0⟩), ⟨p.ticks.eraseIdx index⟩)

/-- `TickListDataProvider::get_tick_by_index` from src: physical indexing,
failing `InvalidTick` when out of bounds. -/
def TickListDataProvider.get_tick_by_index (p : TickListDataProvider)
    (index : Nat) : Except Error Tick :=
  match p.ticks.get? index with
  | some t => .ok t
  | none => .error (.InvalidTick 0)

/-- Modelled from the spec: `validate_list` is called by `TickMap::new` but
is itself not under src/.  Per the spec, the validation pass checks
alignment (every index a multiple of `tick_spacing`, with a nonzero
spacing), failing `InvalidSpacing`, and conservation (the `liquidity_net`
values sum to zero), failing `ZeroNet`. -/
def validate_list (ticks : List Tick) (tick_spacing : Int) :
    Except Error Unit :=
  if tick_spacing ≤ 0 then .error .InvalidSpacing
  else if ¬ ticks.all (fun t => t.index % tick_spacing == 0) then
    .error .InvalidSpacing
  else if (ticks.map (·.liquidity_net)).sum ≠ 0 then .error .ZeroNet
  else .ok ()

/-- Word index of a compressed tick position (`compressed >> 8`). -/
def wordOf (c : Int) : Int := c / 256

/-- Bit position of a compressed tick position inside its word
(`compressed & 255`, always in `[0, 256)`). -/
def bitOf (c : Int) : Nat := (c % 256).toNat

/-- One iteration of the bitmap-construction loop in `TickMap::new` (src):
read the word at the tick's word index (defaulting to zero), set the tick's
bit, store it back.  The sparse word map is embedded as a total function
with default 0. -/
def buildBitmapStep (tick_spacing : Int) (bm : Int → Nat) (t : Tick) :
    Int → Nat :=
  let c := t.index / tick_spacing
  let w := wordOf c
  let b := bitOf c
  fun w' => if w' = w then bm w ||| (1 <<< b) else bm w'

/-- The bitmap built by `TickMap::new` (src) from a snapshot. -/
def buildBitmap (ticks : List Tick) (tick_spacing : Int) : Int → Nat :=
  ticks.foldl (buildBitmapStep tick_spacing) (fun _ => 0)

/-- One insertion of the `FxHashMap::from_iter` call in `TickMap::new`
(src): later entries with an equal key overwrite earlier ones. -/
def buildInnerStep (m : Int → Option Tick) (t : Tick) : Int → Option Tick :=
  fun i => if i = t.index then some t else m i

/-- The index-to-tick hash map built by `TickMap::new` (src), embedded as a
total function with default `none`. -/
def buildInner (ticks : List Tick) : Int → Option Tick :=
  ticks.foldl buildInnerStep (fun _ => none)

/-- The hash+bitmap tick index, from src (`TickMap<I>`). -/
structure TickMap where
  bitmap : Int → Nat
  inner : Int → Option Tick
  tick_spacing : Int

/-- `TickMap::new` from src: validates the snapshot (the `validate_list`
call panics in Rust; panics are embedded as errors), then builds the bitmap
and the index-to-tick map from the same snapshot. -/
def TickMap.new (ticks : List Tick) (tick_spacing : Int) :
    Except Error TickMap :=
  match validate_list ticks tick_spacing with
  | .error e => .error e
  | .ok _ =>
    .ok { bitmap := buildBitmap ticks tick_spacing
          inner := buildInner ticks
          tick_spacing := tick_spacing }

/-- `TickMap::get_tick` from src: exact hash lookup, failing `InvalidTick`
when the index is absent. -/
def TickMap.get_tick (tm : TickMap) (tick : Int) : Except Error Tick :=
  match tm.inner tick with
  | some t => .ok t
  | none => .error (.InvalidTick tick)

/-- Maximum of a list of integers, `none` when empty. -/
def listMax? (l : List Int) : Option Int :=
  l.foldl (fun acc i => match acc with
    | none => some i
    | some j => some (max j i)) none

/-- Minimum of a list of integers, `none` when empty. -/
def listMin? (l : List Int) : Option Int :=
  l.foldl (fun acc i => match acc with
    | none => some i
    | some j => some (min j i)) none

/-- Modelled from the spec: the word-scoped bitmap search
(`TickBitMap::next_initialized_tick_within_one_word`) that `TickMap`
delegates to is not under src/.  Per the spec: compress the query tick,
mask the bits of its word at-or-below (`lte = true`) or strictly above
(`lte = false`) its bit position, and answer the extreme set bit in that
direction, or the word's extreme boundary tick with `initialized = false`
when the masked word is zero.  The strictly-above search starts at the
position of `compressed + 1` (so the word advances when the query sits on a
word's top bit) — the convention forced by the spec's concurrency section,
which bounds the caller's cross-word loop by the ticks between price and
limit. -/
def tickBitMapNextInit (bm : Int → Nat) (tick : Int) (lte : Bool)
    (tick_spacing : Int) : Int × Bool :=
  let c := tick / tick_spacing
  if lte then
    let w := wordOf c
    let b := bitOf c
    let word := bm w
    match listMax? (((List.range 256).filter
        (fun p => p ≤ b ∧ word.testBit p)).map (fun (p : Nat) => (p : Int))) with
    | some p => ((w * 256 + p) * tick_spacing, true)
    | none => (w * 256 * tick_spacing, false)
  else
    let w := wordOf (c + 1)
    let b := bitOf (c + 1)
    let word := bm w
    match listMin? (((List.range 256).filter
        (fun p => b ≤ p ∧ word.testBit p)).map (fun (p : Nat) => (p : Int))) with
    | some p => ((w * 256 + p) * tick_spacing, true)
    | none => ((w * 256 + 255) * tick_spacing, false)

/-- `TickMap`'s `next_initialized_tick_within_one_word` from src: delegates
to the bitmap search. -/
def TickMap.next_init_tick_within_one_word (tm : TickMap) (tick : Int)
    (lte : Bool) (tick_spacing : Int) : Int × Bool :=
  tickBitMapNextInit tm.bitmap tick lte tick_spacing

/-- Modelled from the spec: the list-backed `get_tick` (the
`TickDataProvider` impl that `TickListDataProvider` inherits) is not under
src/.  Per the spec it returns the stored tick with the queried index —
found by binary search on the sorted list, observationally the unique
matching entry — and fails with an invalid-tick error when absent. -/
def tickListGetTick (ticks : List Tick) (tick : Int) : Except Error Tick :=
  match ticks.find? (fun t => t.index == tick) with
  | some t => .ok t
  | none => .error (.InvalidTick tick)

/-- Modelled from the spec: the list-backed
`next_initialized_tick_within_one_word` is not under src/.  Per the spec it
scans the entries whose compressed index falls in the word containing the
query tick, at-or-below (`lte = true`) or strictly above (`lte = false`)
the query's compressed position, returning the nearest such initialized
tick in the travel direction, or the word boundary with
`initialized = false` when there is none.  As in the bitmap search, the
strictly-above direction scans the word containing `compressed + 1`. -/
def tickListNextInit (ticks : List Tick) (tick : Int) (lte : Bool)
    (tick_spacing : Int) : Int × Bool :=
  let c := tick / tick_spacing
  if lte then
    let w := wordOf c
    match listMax? ((ticks.filter (fun t =>
        w * 256 ≤ t.index / tick_spacing ∧
        t.index / tick_spacing ≤ c)).map (·.index)) with
    | some i => (i, true)
    | none => (w * 256 * tick_spacing, false)
  else
    let w := wordOf (c + 1)
    match listMin? ((ticks.filter (fun t =>
        c < t.index / tick_spacing ∧
        t.index / tick_spacing ≤ w * 256 + 255)).map (·.index)) with
    | some i => (i, true)
    | none => ((w * 256 + 255) * tick_spacing, false)

/-- The uniform tick-lookup capability (`TickDataProvider`), from the spec's
component design: `get_tick` and `next_initialized_tick_within_one_word`,
implemented by the list index, the map index and a no-data stand-in. -/
class TickDataProvider (TP : Type) where
  get_tick : TP → Int → Except Error Tick
  next_init_tick : TP → Int → Bool → Int → Except Error (Int × Bool)

instance : TickDataProvider TickListDataProvider where
  get_tick p tick := tickListGetTick p.ticks tick
  next_init_tick p tick lte tick_spacing :=
    .ok (tickListNextInit p.ticks tick lte tick_spacing)

instance : TickDataProvider TickMap where
  get_tick tm tick := tm.get_tick tick
  next_init_tick tm tick lte tick_spacing :=
    .ok (tm.next_init_tick_within_one_word tick lte tick_spacing)

/-- The no-data stand-in for pools that never cross a tick; both lookups
fail. -/
structure NoTickDataProvider where
deriving Repr, DecidableEq

instance : TickDataProvider NoTickDataProvider where
  get_tick _ _ := .error .NoTickData
  next_init_tick _ _ _ _ := .error .NoTickData

/-- Modelled from the spec: the token value object is an external
collaborator (consumed, not reimplemented); per the spec's interface
section it carries a chain id, an address and a decimal count.  Addresses
are embedded as natural numbers; token equality is structural. -/
structure Token where
  chainId : Nat
  address : Nat
  decimals : Nat
deriving Repr, DecidableEq

/-- Modelled from the spec: `Token::sorts_before`, used by the Pool
constructor, fails construction for two tokens on different chains or with
equal addresses, and otherwise compares addresses. -/
def Token.sorts_before (a b : Token) : Except Error Bool :=
  if a.chainId ≠ b.chainId then .error .ChainIdMismatch
  else if a.address = b.address then .error .EqualAddresses
  else .ok (a.address < b.address)

/-- The fee tiers, from the spec's interface section: the enumerated
LOWEST/LOW/MEDIUM/HIGH tiers plus a custom variant carrying both the fee
and the tick spacing. -/
inductive FeeAmount where
  | LOWEST
  | LOW
  | MEDIUM
  | HIGH
  | CUSTOM (fee : Nat) (tick_spacing : Int)
deriving Repr, DecidableEq

/-- The fee of a tier in hundredths of a basis point. -/
def FeeAmount.fee : FeeAmount → Nat
  | .LOWEST => 100
  | .LOW => 500
  | .MEDIUM => 3000
  | .HIGH => 10000
  | .CUSTOM f _ => f

/-- The tick spacing of a tier. -/
def FeeAmount.tick_spacing : FeeAmount → Int
  | .LOWEST => 1
  | .LOW => 10
  | .MEDIUM => 60
  | .HIGH => 200
  | .CUSTOM _ s => s

/-- Modelled from the spec: a currency amount pairs a token with a raw
integer magnitude (an external value object, consumed not reimplemented).
The spec assigns it no failure conditions of its own, so its constructor is
total. -/
structure CurrencyAmount where
  currency : Token
  quotient : Int
deriving Repr, DecidableEq

/-- `CurrencyAmount::from_raw_amount`, modelled from the spec as total. -/
def CurrencyAmount.from_raw_amount (currency : Token) (amount : Int) :
    CurrencyAmount :=
  ⟨currency, amount⟩

/-- The ephemeral per-swap state of the spec's data model:
{amount_specified_remaining, amount_calculated, sqrt_price_x96, tick,
liquidity}. -/
structure SwapState where
  amount_specified_remaining : Int
  amount_calculated : Int
  sqrt_price_x96 : Nat
  tick : Int
  liquidity : Nat
deriving Repr, DecidableEq

/-- Modelled from the spec (one constant-product step, §4.4 d): given the
current and target sqrt prices, the active liquidity, the remaining
specified amount (positive = exact input, negative = exact output) and the
fee in hundredths of a basis point, returns the advanced sqrt price and the
(input, output, fee) consumed.  The spec fixes the step's contract — the
price advances from the current price toward, and never beyond, the target;
a step that can afford the whole distance lands exactly on the target;
input is charged the fee — but not the fixed-point formulas, which no claim
under verification depends on; the amount law is linear in the
order-isomorphic price model. -/
def computeSwapStep (cur target : Nat) (liquidity : Nat) (remaining : Int)
    (feePips : Nat) : Nat × Nat × Nat × Nat :=
  let dist := max cur target - min cur target
  let fullIn := liquidity * dist
  let fullOut := liquidity * dist
  if 0 ≤ remaining then
    let remNat := remaining.toNat
    let remLessFee := remNat * (1000000 - feePips) / 1000000
    if fullIn ≤ remLessFee then
      (target, fullIn, fullOut,
        (fullIn * feePips + (1000000 - feePips) - 1) / (1000000 - feePips))
    else
      let d := remLessFee / (if liquidity = 0 then 1 else liquidity)
      let next := if cur ≤ target then min target (cur + d)
        else max target (cur - d)
      let dd := max cur next - min cur next
      (next, liquidity * dd, liquidity * dd, remNat - liquidity * dd)
  else
    let outReq := (-remaining).toNat
    if fullOut ≤ outReq then
      (target, fullIn, fullOut,
        (fullIn * feePips + (1000000 - feePips) - 1) / (1000000 - feePips))
    else
      let d := outReq / (if liquidity = 0 then 1 else liquidity)
      let next := if cur ≤ target then min target (cur + d)
        else max target (cur - d)
      let dd := max cur next - min cur next
      (next, liquidity * dd, liquidity * dd,
        (liquidity * dd * feePips + (1000000 - feePips) - 1) /
          (1000000 - feePips))

/-- Applying a signed liquidity delta when crossing an initialized boundary,
modelled from the spec: active liquidity is unsigned, so the result must
stay within the unsigned range (an internal arithmetic failure otherwise). -/
def addLiquidityDelta (liquidity : Nat) (delta : Int) : Except Error Nat :=
  let r := (liquidity : Int) + delta
  if r < 0 ∨ (2 : Int) ^ 128 ≤ r then .error .LiquidityOverflow
  else .ok r.toNat

/-- Modelled from the spec (§4.4): the per-swap state machine loop that the
Pool entry points call through `v3_swap` (not under src/).  While the
remaining amount is nonzero and the price has not reached the limit: ask
the provider for the next initialized tick in the travel direction within
the current word, clamp it to the tick domain, convert it to a price,
clamp the step target to whichever of that boundary and the caller limit is
nearer the current price, take one constant-product step, account the
consumed and calculated amounts by the exact-input/exact-output convention,
and either cross the boundary (applying the liquidity delta with the sign
flipped when travelling down, and stepping the tick just past the boundary)
or recompute the tick from the advanced price.  The first sub-step failure
aborts the loop.  Fuel is an embedding artifact bounding the loop, which
the spec bounds by the words and initialized ticks between the price and
the limit. -/
def swapLoop (TP : Type) [TickDataProvider TP] (provider : TP)
    (zero_for_one : Bool) (exact_input : Bool) (feePips : Nat)
    (tick_spacing : Int) (limit : Nat) :
    Nat → SwapState → Except Error SwapState
  | 0, _ => .error .FuelExhausted
  | fuel + 1, s =>
    if s.amount_specified_remaining = 0 ∨ s.sqrt_price_x96 = limit then .ok s
    else
      match TickDataProvider.next_init_tick provider s.tick zero_for_one
          tick_spacing with
      | .error e => .error e
      | .ok (tickNextRaw, initialized) =>
        let tickNext := max MIN_TICK (min MAX_TICK tickNextRaw)
        match get_sqrt_ratio_at_tick tickNext with
        | .error e => .error e
        | .ok sqrtNext =>
          let target := if (decide (sqrtNext < limit)) = zero_for_one then
              limit else sqrtNext
          let step := computeSwapStep s.sqrt_price_x96 target s.liquidity
            s.amount_specified_remaining feePips
          let sqrtNew := step.1
          let amtIn := step.2.1
          let amtOut := step.2.2.1
          let feeAmt := step.2.2.2
          let s1 : SwapState :=
            if exact_input then
              { s with
                sqrt_price_x96 := sqrtNew
                amount_specified_remaining :=
                  s.amount_specified_remaining - ((amtIn : Int) + feeAmt)
                amount_calculated := s.amount_calculated - amtOut }
            else
              { s with
                sqrt_price_x96 := sqrtNew
                amount_specified_remaining :=
                  s.amount_specified_remaining + amtOut
                amount_calculated :=
                  s.amount_calculated + ((amtIn : Int) + feeAmt) }
          if sqrtNew = sqrtNext then
            if initialized then
              match TickDataProvider.get_tick provider tickNext with
              | .error e => .error e
              | .ok crossed =>
                match addLiquidityDelta s1.liquidity
                    (if zero_for_one then -crossed.liquidity_net
                     else crossed.liquidity_net) with
                | .error e => .error e
                | .ok liq' =>
                  swapLoop TP provider zero_for_one exact_input feePips
                    tick_spacing limit fuel
                    { s1 with
                      liquidity := liq'
                      tick := if zero_for_one then tickNext - 1
                        else tickNext }
            else
              swapLoop TP provider zero_for_one exact_input feePips
                tick_spacing limit fuel
                { s1 with
                  tick := if zero_for_one then tickNext - 1
                    else tickNext }
          else if sqrtNew ≠ s.sqrt_price_x96 then
            match get_tick_at_sqrt_ratio sqrtNew with
            | .error e => .error e
            | .ok t => swapLoop TP provider zero_for_one exact_input feePips
                tick_spacing limit fuel { s1 with tick := t }
          else
            swapLoop TP provider zero_for_one exact_input feePips
              tick_spacing limit fuel s1

/-- Conservative fuel bound for the swap loop (more than the number of
ticks in the domain). -/
def SWAP_FUEL : Nat := 1800000

/-- Modelled from the spec (§4.4): `v3_swap`, the swap entry of the engine
(not under src/).  Defaults the missing price limit to just past the
extreme representable price in the travel direction, validates that the
limit lies strictly beyond the current price on the correct side and within
the global price bounds, and runs the loop from the pool's transient
state. -/
def v3Swap (TP : Type) [TickDataProvider TP] (feePips : Nat)
    (sqrtStart : Nat) (tickStart : Int) (liquidity : Nat)
    (tick_spacing : Int) (provider : TP) (zero_for_one : Bool)
    (amount_specified : Int) (sqrt_price_limit_x96 : Option Nat) :
    Except Error SwapState :=
  let limit := sqrt_price_limit_x96.getD
    (if zero_for_one then MIN_SQRT_RATIO + 1 else MAX_SQRT_RATIO - 1)
  if zero_for_one then
    if MIN_SQRT_RATIO ≤ limit ∧ limit < sqrtStart then
      swapLoop TP provider zero_for_one (0 ≤ amount_specified) feePips
        tick_spacing limit SWAP_FUEL
        ⟨amount_specified, 0, sqrtStart, tickStart, liquidity⟩
    else .error .InvalidSqrtRatio
  else
    if sqrtStart < limit ∧ limit ≤ MAX_SQRT_RATIO then
      swapLoop TP provider zero_for_one (0 ≤ amount_specified) feePips
        tick_spacing limit SWAP_FUEL
        ⟨amount_specified, 0, sqrtStart, tickStart, liquidity⟩
    else .error .InvalidSqrtRatio

/-- The pool aggregate, from src (`Pool<TP>`): the two canonically ordered
tokens, the fee tier, the current sqrt price, the active liquidity, the
current tick and the tick data provider. -/
structure Pool (TP : Type) where
  token0 : Token
  token1 : Token
  fee : FeeAmount
  sqrt_ratio_x96 : Nat
  liquidity : Nat
  tick_current : Int
  tick_data_provider : TP

/-- `PartialEq for Pool` from src: compares token0, token1, fee, sqrt
price, liquidity and current tick — and not the tick data provider. -/
def Pool.poolEq {TP : Type} (p q : Pool TP) : Bool :=
  p.token0 == q.token0 && p.token1 == q.token1 && p.fee == q.fee &&
    p.sqrt_ratio_x96 == q.sqrt_ratio_x96 && p.liquidity == q.liquidity &&
    p.tick_current == q.tick_current

/-- `Pool::new_with_tick_data_provider` from src: orders the two tokens by
`sorts_before` (which fails on chain mismatch or equal addresses) and
derives the current tick from the supplied sqrt price. -/
def Pool.new_with_tick_data_provider (TP : Type) (token_a token_b : Token)
    (fee : FeeAmount) (sqrt_ratio_x96 : Nat) (liquidity : Nat)
    (tick_data_provider : TP) : Except Error (Pool TP) :=
  match token_a.sorts_before token_b with
  | .error e => .error e
  | .ok sb =>
    match get_tick_at_sqrt_ratio sqrt_ratio_x96 with
    | .error e => .error e
    | .ok tick =>
      .ok ⟨if sb then token_a else token_b, if sb then token_b else token_a,
        fee, sqrt_ratio_x96, liquidity, tick, tick_data_provider⟩

/-- `Pool::new` from src: construction with the no-data provider. -/
def Pool.new (token_a token_b : Token) (fee : FeeAmount)
    (sqrt_ratio_x96 : Nat) (liquidity : Nat) :
    Except Error (Pool NoTickDataProvider) :=
  Pool.new_with_tick_data_provider NoTickDataProvider token_a token_b fee
    sqrt_ratio_x96 liquidity ⟨⟩

/-- `Pool::tick_spacing` from src: the fee tier's spacing. -/
def Pool.tick_spacing {TP : Type} (pool : Pool TP) : Int :=
  pool.fee.tick_spacing

/-- `Pool::involves_token` from src: the token is one of the pool's two. -/
def Pool.involves_token {TP : Type} (pool : Pool TP) (token : Token) :
    Bool :=
  pool.token0 == token || pool.token1 == token

/-- `Pool::_swap` from src: runs `v3_swap` on the pool's fee, transient
price/tick/liquidity state, spacing and provider. -/
def Pool.swapInner {TP : Type} [TickDataProvider TP] (pool : Pool TP)
    (zero_for_one : Bool) (amount_specified : Int)
    (sqrt_price_limit_x96 : Option Nat) : Except Error SwapState :=
  v3Swap TP pool.fee.fee pool.sqrt_ratio_x96 pool.tick_current
    pool.liquidity pool.tick_spacing pool.tick_data_provider zero_for_one
    amount_specified sqrt_price_limit_x96

/-- `Pool::get_output_amount` from src (read-only): validates the input
token, quotes the swap on a disposable copy of the state, fails
`InsufficientLiquidity` when the loop left a remainder with no caller
limit, and returns the counter-token amount.  The second component is the
pool after the call; the body performs no field assignment. -/
def Pool.get_output_amount {TP : Type} [TickDataProvider TP] (pool : Pool TP)
    (input_amount : CurrencyAmount) (sqrt_price_limit_x96 : Option Nat) :
    Except Error CurrencyAmount × Pool TP :=
  if ¬ pool.involves_token input_amount.currency then
    (.error .InvalidToken, pool)
  else
    let zero_for_one := input_amount.currency == pool.token0
    match pool.swapInner zero_for_one input_amount.quotient
        sqrt_price_limit_x96 with
    | .error e => (.error e, pool)
    | .ok s =>
      if s.amount_specified_remaining ≠ 0 ∧ sqrt_price_limit_x96 = none then
        (.error .InsufficientLiquidity, pool)
      else
        let output_token := if zero_for_one then pool.token1 else pool.token0
        (.ok (CurrencyAmount.from_raw_amount output_token
          (-s.amount_calculated)), pool)

/-- `Pool::get_output_amount_mut` from src (mutating): as the read-only
quote, but commits the final price, then the tick recomputed from that
price, then the liquidity, before building the result amount.  The Rust
method mutates `self` in place; the embedding returns the pool alongside
the result, so a failure of the tick recomputation leaves the
already-committed price visible, exactly as in the source's statement
order. -/
def Pool.get_output_amount_mut {TP : Type} [TickDataProvider TP]
    (pool : Pool TP) (input_amount : CurrencyAmount)
    (sqrt_price_limit_x96 : Option Nat) :
    Except Error CurrencyAmount × Pool TP :=
  if ¬ pool.involves_token input_amount.currency then
    (.error .InvalidToken, pool)
  else
    let zero_for_one := input_amount.currency == pool.token0
    match pool.swapInner zero_for_one input_amount.quotient
        sqrt_price_limit_x96 with
    | .error e => (.error e, pool)
    | .ok s =>
      if s.amount_specified_remaining ≠ 0 ∧ sqrt_price_limit_x96 = none then
        (.error .InsufficientLiquidity, pool)
      else
        let output_token := if zero_for_one then pool.token1 else pool.token0
        let pool1 := { pool with sqrt_ratio_x96 := s.sqrt_price_x96 }
        match get_tick_at_sqrt_ratio s.sqrt_price_x96 with
        | .error e => (.error e, pool1)
        | .ok tick =>
          let pool2 := { pool1 with
            tick_current := tick
            liquidity := s.liquidity }
          (.ok (CurrencyAmount.from_raw_amount output_token
            (-s.amount_calculated)), pool2)

/-- `Pool::get_input_amount` from src (read-only): validates the output
token, quotes the reverse-direction swap of the negated output magnitude on
a disposable copy, fails `InsufficientLiquidity` when the loop left a
remainder with no caller limit, and returns the counter-token amount. -/
def Pool.get_input_amount {TP : Type} [TickDataProvider TP] (pool : Pool TP)
    (output_amount : CurrencyAmount) (sqrt_price_limit_x96 : Option Nat) :
    Except Error CurrencyAmount × Pool TP :=
  if ¬ pool.involves_token output_amount.currency then
    (.error .InvalidToken, pool)
  else
    let zero_for_one := output_amount.currency == pool.token1
    match pool.swapInner zero_for_one (-output_amount.quotient)
        sqrt_price_limit_x96 with
    | .error e => (.error e, pool)
    | .ok s =>
      if s.amount_specified_remaining ≠ 0 ∧ sqrt_price_limit_x96 = none then
        (.error .InsufficientLiquidity, pool)
      else
        let input_token := if zero_for_one then pool.token0 else pool.token1
        (.ok (CurrencyAmount.from_raw_amount input_token
          s.amount_calculated), pool)

/-- `Pool::get_input_amount_mut` from src (mutating): as the read-only
variant, committing price, recomputed tick and liquidity in the source's
statement order. -/
def Pool.get_input_amount_mut {TP : Type} [TickDataProvider TP]
    (pool : Pool TP) (output_amount : CurrencyAmount)
    (sqrt_price_limit_x96 : Option Nat) :
    Except Error CurrencyAmount × Pool TP :=
  if ¬ pool.involves_token output_amount.currency then
    (.error .InvalidToken, pool)
  else
    let zero_for_one := output_amount.currency == pool.token1
    match pool.swapInner zero_for_one (-output_amount.quotient)
        sqrt_price_limit_x96 with
    | .error e => (.error e, pool)
    | .ok s =>
      if s.amount_specified_remaining ≠ 0 ∧ sqrt_price_limit_x96 = none then
        (.error .InsufficientLiquidity, pool)
      else
        let input_token := if zero_for_one then pool.token0 else pool.token1
        let pool1 := { pool with sqrt_ratio_x96 := s.sqrt_price_x96 }
        match get_tick_at_sqrt_ratio s.sqrt_price_x96 with
        | .error e => (.error e, pool1)
        | .ok tick =>
          let pool2 := { pool1 with
            tick_current := tick
            liquidity := s.liquidity }
          (.ok (CurrencyAmount.from_raw_amount input_token
            s.amount_calculated), pool2)

/-- A sample token on chain 1. -/
def tokA : Token := ⟨1, 10, 18⟩

/-- A second sample token on chain 1, sorting after `tokA`. -/
def tokB : Token := ⟨1, 20, 6⟩

/-- A third sample token, not in the sample pool. -/
def tokC : Token := ⟨1, 30, 8⟩

/-- A sample pool over an empty list-backed index with zero liquidity, at
the price of tick 0, in the HIGH fee tier. -/
def pool0 : Pool TickListDataProvider :=
  match Pool.new_with_tick_data_provider TickListDataProvider tokA tokB
    .HIGH 887273 0 (TickListDataProvider.new [] 200) with
  | .ok p => p
  | .error _ => ⟨tokA, tokB, .HIGH, 887273, 0, 0, ⟨[]⟩⟩

/-- A sample snapshot with aligned, distinct indices spanning several words
whose liquidity deltas sum to zero. -/
def sampleTicks : List Tick := [⟨-256, 1, 5⟩, ⟨0, 2, -3⟩, ⟨512, 3, -2⟩]

/-- Strict physical ordering of a tick list by index, the invariant of the
spec's data model for `TickList`. -/
def StrictlyIncreasing (l : List Tick) : Prop :=
  l.Pairwise (fun a b => a.index < b.index)

instance (l : List Tick) : Decidable (StrictlyIncreasing l) :=
  inferInstanceAs (Decidable (l.Pairwise _))

/-- Nondecreasing physical ordering of a tick list by index. -/
def Nondecreasing (l : List Tick) : Prop :=
  l.Pairwise (fun a b => a.index ≤ b.index)

instance (l : List Tick) : Decidable (Nondecreasing l) :=
  inferInstanceAs (Decidable (l.Pairwise _))

/-- The map-backed `get_tick` observed through snapshot construction:
`TickMap::new` followed by `TickMap::get_tick`, with a construction
failure propagated. -/
def tickMapGetTickOfSnapshot (ticks : List Tick) (tick_spacing : Int)
    (tick : Int) : Except Error Tick :=
  match TickMap.new ticks tick_spacing with
  | .error e => .error e
  | .ok tm => tm.get_tick tick

/-- The map-backed `next_initialized_tick_within_one_word` observed through
snapshot construction. -/
def tickMapNextOfSnapshot (ticks : List Tick) (tick_spacing : Int)
    (tick : Int) (lte : Bool) : Except Error (Int × Bool) :=
  match TickMap.new ticks tick_spacing with
  | .error e => .error e
  | .ok tm => .ok (tm.next_init_tick_within_one_word tick lte tick_spacing)

/-- C2: the claim says both snapshot constructors validate, failing ZeroNet
on broken conservation; the in-file tests of
`tick_list_data_provider.rs` expect exactly that (`ZERO_NET`,
`TICK_SPACING_NONZERO`).  But the `validate_list` call in
`TickListDataProvider::new` is commented out: on the test's own failing
snapshot — net deltas −1 and 2 — construction succeeds, returns the sorted
snapshot whose deltas sum to 1, and the validation pass that `TickMap::new`
still runs would have rejected it with ZeroNet.  The code contradicts its
own tests, so the claim stands and the code is wrong. -/
theorem claim_C2_list_constructor_skips_validation :
    (TickListDataProvider.new [⟨-1, 1, -1⟩, ⟨1, 1, 2⟩] 1).ticks
        = [⟨-1, 1, -1⟩, ⟨1, 1, 2⟩]
      ∧ (((TickListDataProvider.new [⟨-1, 1, -1⟩, ⟨1, 1, 2⟩] 1).ticks.map
          (·.liquidity_net)).sum = 1)
      ∧ validate_list [⟨-1, 1, -1⟩, ⟨1, 1, 2⟩] 1 = .error .ZeroNet := by
  refine ⟨rfl, rfl, rfl⟩

/-- C9: equality on `Pool` ignores the tick data provider — two pools
compare equal exactly when token0, token1, fee, sqrt price, liquidity and
current tick agree, whatever their providers hold. -/
theorem claim_C9_pool_eq_ignores_provider {TP : Type} (p q : Pool TP) :
    Pool.poolEq p q = true ↔
      p.token0 = q.token0 ∧ p.token1 = q.token1 ∧ p.fee = q.fee ∧
        p.sqrt_ratio_x96 = q.sqrt_ratio_x96 ∧ p.liquidity = q.liquidity ∧
        p.tick_current = q.tick_current := by
  simp [Pool.poolEq, and_assoc]

/-- C10: on a physical index at or past the list length, `update_tick` and
`remove_tick` return `InvalidTick` and leave the list unchanged, and
`get_tick_by_index` returns `InvalidTick`; the embedding is total, so no
panic is possible. -/
theorem claim_C10_out_of_bounds_lookups (p : TickListDataProvider)
    (index : Nat) (tick : Tick) (tick_spacing : Int)
    (h : p.ticks.length ≤ index) :
    p.update_tick index tick = (.error (.InvalidTick 0), p) ∧
      p.remove_tick index tick_spacing = (.error (.InvalidTick 0), p) ∧
      p.get_tick_by_index index = .error (.InvalidTick 0) := by
  refine ⟨?_, ?_, ?_⟩
  · unfold TickListDataProvider.update_tick
    rw [if_pos h]
  · unfold TickListDataProvider.remove_tick
    rw [if_pos h]
  · unfold TickListDataProvider.get_tick_by_index
    rw [List.get?_eq_none.mpr h]

/-- Witness for C10 at a concrete provider and index. -/
theorem claim_C10_witness :
    (⟨[⟨0, 1, 1⟩]⟩ : TickListDataProvider).ticks.length ≤ 1 ∧
      (⟨[⟨0, 1, 1⟩]⟩ : TickListDataProvider).update_tick 1 ⟨5, 2, 2⟩
          = (.error (.InvalidTick 0), ⟨[⟨0, 1, 1⟩]⟩) ∧
        (⟨[⟨0, 1, 1⟩]⟩ : TickListDataProvider).remove_tick 1 1
            = (.error (.InvalidTick 0), ⟨[⟨0, 1, 1⟩]⟩) ∧
          (⟨[⟨0, 1, 1⟩]⟩ : TickListDataProvider).get_tick_by_index 1
            = .error (.InvalidTick 0) :=
  ⟨by decide, claim_C10_out_of_bounds_lookups ⟨[⟨0, 1, 1⟩]⟩ 1 ⟨5, 2, 2⟩ 1
    (by decide)⟩

/-- C6: the read-only entry points leave every field of the pool unchanged,
and calling the same entry point again on the pool state returned by the
first call — with the same arguments — produces the identical result. -/
theorem claim_C6_read_only_entry_points_pure {TP : Type}
    [TickDataProvider TP] (pool : Pool TP) (amount : CurrencyAmount)
    (sqrt_price_limit_x96 : Option Nat) :
    (pool.get_output_amount amount sqrt_price_limit_x96).2 = pool ∧
      (pool.get_input_amount amount sqrt_price_limit_x96).2 = pool ∧
      ((pool.get_output_amount amount sqrt_price_limit_x96).2).get_output_amount
          amount sqrt_price_limit_x96
        = pool.get_output_amount amount sqrt_price_limit_x96 ∧
      ((pool.get_input_amount amount sqrt_price_limit_x96).2).get_input_amount
          amount sqrt_price_limit_x96
        = pool.get_input_amount amount sqrt_price_limit_x96 := by
  have h1 : (pool.get_output_amount amount sqrt_price_limit_x96).2 = pool := by
    unfold Pool.get_output_amount
    split
    · rfl
    · dsimp only
      split
      · rfl
      · split
        · rfl
        · rfl
  have h2 : (pool.get_input_amount amount sqrt_price_limit_x96).2 = pool := by
    unfold Pool.get_input_amount
    split
    · rfl
    · dsimp only
      split
      · rfl
      · split
        · rfl
        · rfl
  exact ⟨h1, h2, by rw [h1], by rw [h2]⟩

/-- C8: on success, pool construction orders the tokens canonically —
token0's address sorts strictly before token1's — and swapping the
constructor's argument order yields the same token0/token1 assignment;
`Pool::new` is the same constructor applied to the no-data provider. -/
theorem claim_C8_token_ordering (TP : Type) (a b : Token) (fee : FeeAmount)
    (sqrt_ratio_x96 liquidity : Nat) (tp tq : TP) (p q : Pool TP)
    (hp : Pool.new_with_tick_data_provider TP a b fee sqrt_ratio_x96
      liquidity tp = .ok p)
    (hq : Pool.new_with_tick_data_provider TP b a fee sqrt_ratio_x96
      liquidity tq = .ok q) :
    p.token0.address < p.token1.address ∧ q.token0 = p.token0 ∧
      q.token1 = p.token1 ∧
      (∀ (a' b' : Token) (fee' : FeeAmount) (s' l' : Nat),
        Pool.new a' b' fee' s' l'
          = Pool.new_with_tick_data_provider NoTickDataProvider a' b' fee' s'
            l' ⟨⟩) := by
  unfold Pool.new_with_tick_data_provider Token.sorts_before at hp hq
  by_cases hc : a.chainId = b.chainId
  · by_cases hab : a.address = b.address
    · rw [if_neg (fun h => h hc), if_pos hab] at hp
      exact absurd hp (by simp)
    · rw [if_neg (fun h => h hc), if_neg hab] at hp
      rw [if_neg (fun h => h hc.symm), if_neg (fun h => hab h.symm)] at hq
      rcases hga : get_tick_at_sqrt_ratio sqrt_ratio_x96 with e | tick
      · rw [hga] at hp
        exact absurd hp (by simp)
      · rw [hga] at hp hq
        simp only [Except.ok.injEq, decide_eq_true_eq] at hp hq
        rcases lt_trichotomy a.address b.address with hlt | heq | hgt
        · simp only [if_pos hlt, if_neg (lt_asymm hlt)] at hp hq
          subst hp
          subst hq
          exact ⟨hlt, rfl, rfl, fun _ _ _ _ _ => rfl⟩
        · exact absurd heq hab
        · simp only [if_neg (lt_asymm hgt), if_pos hgt] at hp hq
          subst hp
          subst hq
          exact ⟨hgt, rfl, rfl, fun _ _ _ _ _ => rfl⟩
  · rw [if_pos hc] at hp
    exact absurd hp (by simp)

/-- Witness for C8 at concrete distinct same-chain tokens. -/
theorem claim_C8_witness :
    (⟨tokA, tokB, .LOW, 887273, 7, 0, ⟨⟩⟩ :
        Pool NoTickDataProvider).token0.address
      < (⟨tokA, tokB, .LOW, 887273, 7, 0, ⟨⟩⟩ :
        Pool NoTickDataProvider).token1.address :=
  (claim_C8_token_ordering NoTickDataProvider tokA tokB .LOW 887273 7 ⟨⟩ ⟨⟩
    ⟨tokA, tokB, .LOW, 887273, 7, 0, ⟨⟩⟩ ⟨tokA, tokB, .LOW, 887273, 7, 0, ⟨⟩⟩
    rfl rfl).1

/-- C7: every pool the public interface yields is price/tick consistent —
construction derives the current tick from the supplied sqrt price, and a
successful mutating swap leaves the tick equal to the tick of the committed
final sqrt price. -/
theorem claim_C7_tick_price_consistency {TP : Type} [TickDataProvider TP] :
    (∀ (a b : Token) (fee : FeeAmount) (s l : Nat) (tp : TP) (p : Pool TP),
      Pool.new_with_tick_data_provider TP a b fee s l tp = .ok p →
        get_tick_at_sqrt_ratio p.sqrt_ratio_x96 = .ok p.tick_current) ∧
      (∀ (pool : Pool TP) (amt : CurrencyAmount) (lim : Option Nat)
          (r : CurrencyAmount) (p' : Pool TP),
        pool.get_output_amount_mut amt lim = (.ok r, p') →
          get_tick_at_sqrt_ratio p'.sqrt_ratio_x96 = .ok p'.tick_current) ∧
      (∀ (pool : Pool TP) (amt : CurrencyAmount) (lim : Option Nat)
          (r : CurrencyAmount) (p' : Pool TP),
        pool.get_input_amount_mut amt lim = (.ok r, p') →
          get_tick_at_sqrt_ratio p'.sqrt_ratio_x96 = .ok p'.tick_current) := by
  refine ⟨?_, ?_, ?_⟩
  · intro a b fee s l tp p hp
    unfold Pool.new_with_tick_data_provider at hp
    rcases h1 : a.sorts_before b with e | sb
    · rw [h1] at hp
      exact absurd hp (by simp)
    · rw [h1] at hp
      rcases h2 : get_tick_at_sqrt_ratio s with e | tick
      · rw [h2] at hp
        exact absurd hp (by simp)
      · rw [h2] at hp
        simp only [Except.ok.injEq] at hp
        subst hp
        exact h2
  · intro pool amt lim r p' h
    unfold Pool.get_output_amount_mut at h
    split at h
    · exact absurd h (by simp)
    · dsimp only at h
      split at h
      · exact absurd h (by simp)
      · split at h
        · exact absurd h (by simp)
        · split at h
          · exact absurd h (by simp)
          · next s tick heq =>
            simp only [Prod.mk.injEq, Except.ok.injEq] at h
            obtain ⟨-, hp'⟩ := h
            subst hp'
            exact heq
  · intro pool amt lim r p' h
    unfold Pool.get_input_amount_mut at h
    split at h
    · exact absurd h (by simp)
    · dsimp only at h
      split at h
      · exact absurd h (by simp)
      · split at h
        · exact absurd h (by simp)
        · split at h
          · exact absurd h (by simp)
          · next s tick heq =>
            simp only [Prod.mk.injEq, Except.ok.injEq] at h
            obtain ⟨-, hp'⟩ := h
            subst hp'
            exact heq

/-- Witness for C7: a concrete successful mutating swap on the sample pool
commits price 887272 and tick −1, which are consistent. -/
theorem claim_C7_witness :
    get_tick_at_sqrt_ratio
        ((⟨tokA, tokB, .HIGH, 887272, 0, -1, ⟨[]⟩⟩ :
          Pool TickListDataProvider)).sqrt_ratio_x96
      = .ok ((⟨tokA, tokB, .HIGH, 887272, 0, -1, ⟨[]⟩⟩ :
          Pool TickListDataProvider)).tick_current :=
  (@claim_C7_tick_price_consistency TickListDataProvider _).2.1 pool0
    ⟨tokA, 100⟩ (some 887272) (CurrencyAmount.from_raw_amount tokB 0)
    ⟨tokA, tokB, .HIGH, 887272, 0, -1, ⟨[]⟩⟩ rfl

/-- C5: every entry point rejects an amount in a foreign currency with
`InvalidToken`; and when no price limit was supplied and the loop returned
with a nonzero remaining specified amount, every entry point reports
`InsufficientLiquidity`. -/
theorem claim_C5_invalid_token_and_insufficient_liquidity {TP : Type}
    [TickDataProvider TP] (pool : Pool TP) (amt : CurrencyAmount)
    (lim : Option Nat) :
    (pool.involves_token amt.currency = false →
      (pool.get_output_amount amt lim).1 = .error .InvalidToken ∧
        (pool.get_input_amount amt lim).1 = .error .InvalidToken ∧
        (pool.get_output_amount_mut amt lim).1 = .error .InvalidToken ∧
        (pool.get_input_amount_mut amt lim).1 = .error .InvalidToken) ∧
      (pool.involves_token amt.currency = true →
        (∀ s : SwapState,
          pool.swapInner (amt.currency == pool.token0) amt.quotient none
              = .ok s →
            s.amount_specified_remaining ≠ 0 →
            (pool.get_output_amount amt none).1
                = .error .InsufficientLiquidity ∧
              (pool.get_output_amount_mut amt none).1
                = .error .InsufficientLiquidity) ∧
          (∀ s : SwapState,
            pool.swapInner (amt.currency == pool.token1) (-amt.quotient) none
                = .ok s →
              s.amount_specified_remaining ≠ 0 →
              (pool.get_input_amount amt none).1
                  = .error .InsufficientLiquidity ∧
                (pool.get_input_amount_mut amt none).1
                  = .error .InsufficientLiquidity)) := by
  constructor
  · intro h
    have hni : ¬ pool.involves_token amt.currency = true := by simp [h]
    refine ⟨?_, ?_, ?_, ?_⟩
    · unfold Pool.get_output_amount
      rw [if_pos hni]
    · unfold Pool.get_input_amount
      rw [if_pos hni]
    · unfold Pool.get_output_amount_mut
      rw [if_pos hni]
    · unfold Pool.get_input_amount_mut
      rw [if_pos hni]
  · intro hi
    have hyi : ¬ ¬ pool.involves_token amt.currency = true := by simp [hi]
    constructor
    · intro s hswap hrem
      constructor
      · unfold Pool.get_output_amount
        rw [if_neg hyi]
        dsimp only
        rw [hswap]
        dsimp only
        rw [if_pos ⟨hrem, rfl⟩]
      · unfold Pool.get_output_amount_mut
        rw [if_neg hyi]
        dsimp only
        rw [hswap]
        dsimp only
        rw [if_pos ⟨hrem, rfl⟩]
    · intro s hswap hrem
      constructor
      · unfold Pool.get_input_amount
        rw [if_neg hyi]
        dsimp only
        rw [hswap]
        dsimp only
        rw [if_pos ⟨hrem, rfl⟩]
      · unfold Pool.get_input_amount_mut
        rw [if_neg hyi]
        dsimp only
        rw [hswap]
        dsimp only
        rw [if_pos ⟨hrem, rfl⟩]

/-- Witness for C5: on the sample pool, a foreign-token amount is rejected
with `InvalidToken` by all four entry points, and with no limit the
zero-liquidity loop exhausts the range leaving the full amount remaining,
so both output-direction entry points report `InsufficientLiquidity`. -/
theorem claim_C5_witness :
    ((pool0.get_output_amount ⟨tokC, 100⟩ none).1 = .error .InvalidToken ∧
        (pool0.get_input_amount ⟨tokC, 100⟩ none).1 = .error .InvalidToken ∧
        (pool0.get_output_amount_mut ⟨tokC, 100⟩ none).1
            = .error .InvalidToken ∧
        (pool0.get_input_amount_mut ⟨tokC, 100⟩ none).1
          = .error .InvalidToken) ∧
      ((pool0.get_output_amount ⟨tokA, 100⟩ none).1
            = .error .InsufficientLiquidity ∧
          (pool0.get_output_amount_mut ⟨tokA, 100⟩ none).1
            = .error .InsufficientLiquidity) ∧
        ((pool0.get_input_amount ⟨tokA, 100⟩ none).1
              = .error .InsufficientLiquidity ∧
          (pool0.get_input_amount_mut ⟨tokA, 100⟩ none).1
            = .error .InsufficientLiquidity) :=
  ⟨(claim_C5_invalid_token_and_insufficient_liquidity pool0 ⟨tokC, 100⟩
      none).1 rfl,
    ((claim_C5_invalid_token_and_insufficient_liquidity pool0 ⟨tokA, 100⟩
        none).2 rfl).1 ⟨100, 0, 2, -887271, 0⟩ (by rfl) (by decide),
    ((claim_C5_invalid_token_and_insufficient_liquidity pool0 ⟨tokA, 100⟩
        none).2 rfl).2 ⟨-100, 0, 1774544, 887271, 0⟩ (by rfl) (by decide)⟩

/-- The boundary tick queried by the loop is always clamped into the tick
domain, so its price conversion succeeds and lands in the price domain. -/
lemma get_sqrt_ratio_at_tick_clamped (raw : Int) :
    ∃ v : Nat, get_sqrt_ratio_at_tick (max MIN_TICK (min MAX_TICK raw)) = .ok v
      ∧ MIN_SQRT_RATIO ≤ v ∧ v ≤ MAX_SQRT_RATIO := by
  refine ⟨(max MIN_TICK (min MAX_TICK raw) + 887273).toNat, ?_, ?_, ?_⟩
  · unfold get_sqrt_ratio_at_tick
    rw [if_neg]
    unfold MIN_TICK MAX_TICK
    omega
  · unfold MIN_SQRT_RATIO MIN_TICK
    omega
  · unfold MAX_SQRT_RATIO MIN_TICK MAX_TICK
    omega

/-- A partial step lands between the current price and the target. -/
lemma partial_step_between (cur target d : Nat) :
    min cur target
        ≤ (if cur ≤ target then min target (cur + d) else max target (cur - d))
      ∧ (if cur ≤ target then min target (cur + d) else max target (cur - d))
        ≤ max cur target := by
  split <;> constructor <;> omega

/-- One constant-product step never moves the price beyond the segment
between the current price and the step target. -/
lemma computeSwapStep_price_between (cur target liquidity : Nat)
    (remaining : Int) (feePips : Nat) :
    min cur target ≤ (computeSwapStep cur target liquidity remaining feePips).1
      ∧ (computeSwapStep cur target liquidity remaining feePips).1
        ≤ max cur target := by
  unfold computeSwapStep
  dsimp only
  split
  · split
    · exact ⟨min_le_right cur target, le_max_right cur target⟩
    · exact partial_step_between cur target _
  · split
    · exact ⟨min_le_right cur target, le_max_right cur target⟩
    · exact partial_step_between cur target _

/-- The swap loop keeps the price within the global price bounds: from a
state whose price is in bounds, with an in-bounds limit, any successful run
ends with an in-bounds price. -/
lemma swapLoop_price_bounds {TP : Type} [TickDataProvider TP]
    (provider : TP) (z41 ex : Bool) (feePips : Nat) (tick_spacing : Int)
    (limit : Nat) (hl1 : MIN_SQRT_RATIO ≤ limit)
    (hl2 : limit ≤ MAX_SQRT_RATIO) :
    ∀ (fuel : Nat) (s s' : SwapState),
      MIN_SQRT_RATIO ≤ s.sqrt_price_x96 → s.sqrt_price_x96 ≤ MAX_SQRT_RATIO →
      swapLoop TP provider z41 ex feePips tick_spacing limit fuel s = .ok s' →
      MIN_SQRT_RATIO ≤ s'.sqrt_price_x96
        ∧ s'.sqrt_price_x96 ≤ MAX_SQRT_RATIO := by
  intro fuel
  induction fuel with
  | zero =>
    intro s s' _ _ h
    exact absurd h (by simp [swapLoop])
  | succ n ih =>
    intro s s' hb1 hb2 h
    rw [swapLoop] at h
    split at h
    · simp only [Except.ok.injEq] at h
      subst h
      exact ⟨hb1, hb2⟩
    · split at h
      · exact absurd h (by simp)
      · next tickNextRaw initialized hpr =>
        dsimp only at h
        split at h
        · exact absurd h (by simp)
        · next vNext hsq =>
          obtain ⟨v, hv, hv1, hv2⟩ := get_sqrt_ratio_at_tick_clamped
            tickNextRaw
          rw [hv] at hsq
          simp only [Except.ok.injEq] at hsq
          subst hsq
          have htb : MIN_SQRT_RATIO
              ≤ (if (decide (v < limit)) = z41 then limit else v)
              ∧ (if (decide (v < limit)) = z41 then limit else v)
                ≤ MAX_SQRT_RATIO := by
            constructor <;> split <;> omega
          generalize hmt :
            (if (decide (v < limit)) = z41 then limit else v) = tgt at h htb
          have hstep := computeSwapStep_price_between s.sqrt_price_x96 tgt
            s.liquidity s.amount_specified_remaining feePips
          generalize hms : computeSwapStep s.sqrt_price_x96 tgt s.liquidity
            s.amount_specified_remaining feePips = step at h hstep
          have hnb1 : MIN_SQRT_RATIO ≤ step.1 := by omega
          have hnb2 : step.1 ≤ MAX_SQRT_RATIO := by omega
          clear hstep htb hmt hms hv hpr
          repeat' split at h
          all_goals
            first
            | (refine ih _ s' ?_ ?_ h <;> dsimp only <;> assumption)
            | exact absurd h (by simp)

/-- A successful `v3_swap` from an in-bounds starting price ends with an
in-bounds price (its limit is validated into bounds first). -/
lemma v3Swap_price_bounds {TP : Type} [TickDataProvider TP] (feePips : Nat)
    (sqrtStart : Nat) (tickStart : Int) (liquidity : Nat)
    (tick_spacing : Int) (provider : TP) (z41 : Bool) (amount : Int)
    (lim : Option Nat) (s' : SwapState)
    (hs1 : MIN_SQRT_RATIO ≤ sqrtStart) (hs2 : sqrtStart ≤ MAX_SQRT_RATIO)
    (h : v3Swap TP feePips sqrtStart tickStart liquidity tick_spacing
      provider z41 amount lim = .ok s') :
    MIN_SQRT_RATIO ≤ s'.sqrt_price_x96
      ∧ s'.sqrt_price_x96 ≤ MAX_SQRT_RATIO := by
  unfold v3Swap at h
  split at h
  · dsimp only at h
    split at h
    · next hc =>
      exact swapLoop_price_bounds provider z41 _ feePips tick_spacing _
        hc.1 (le_trans (le_of_lt hc.2) hs2) SWAP_FUEL _ s' hs1 hs2 h
    · exact absurd h (by simp)
  · dsimp only at h
    split at h
    · next hc =>
      exact swapLoop_price_bounds provider z41 _ feePips tick_spacing _
        (le_trans hs1 (le_of_lt hc.1)) hc.2 SWAP_FUEL _ s' hs1 hs2 h
    · exact absurd h (by simp)

/-- `get_tick_at_sqrt_ratio` succeeds on every in-bounds price. -/
lemma get_tick_at_sqrt_ratio_ok (r : Nat) (h1 : MIN_SQRT_RATIO ≤ r)
    (h2 : r ≤ MAX_SQRT_RATIO) :
    get_tick_at_sqrt_ratio r = .ok ((r : Int) - 887273) := by
  unfold get_tick_at_sqrt_ratio
  rw [if_neg]
  omega

/-- C4: whenever a mutating swap entry point returns an error on a pool
whose price is within the global bounds (as every constructed pool's is),
the pool is returned exactly as it was: price, tick and liquidity
unchanged.  Every failure — invalid token, any sub-step failure inside the
loop, insufficient liquidity — happens before the commit, and the
post-commit tick recomputation cannot fail because a successful loop keeps
the price inside the domain of `get_tick_at_sqrt_ratio`. -/
theorem claim_C4_no_partial_commit_on_error {TP : Type} [TickDataProvider TP]
    (pool : Pool TP) (amt : CurrencyAmount) (lim : Option Nat)
    (hb1 : MIN_SQRT_RATIO ≤ pool.sqrt_ratio_x96)
    (hb2 : pool.sqrt_ratio_x96 ≤ MAX_SQRT_RATIO) :
    (∀ (e : Error) (p' : Pool TP),
      pool.get_output_amount_mut amt lim = (.error e, p') →
        p'.sqrt_ratio_x96 = pool.sqrt_ratio_x96 ∧
          p'.tick_current = pool.tick_current ∧
          p'.liquidity = pool.liquidity) ∧
      (∀ (e : Error) (p' : Pool TP),
        pool.get_input_amount_mut amt lim = (.error e, p') →
          p'.sqrt_ratio_x96 = pool.sqrt_ratio_x96 ∧
            p'.tick_current = pool.tick_current ∧
            p'.liquidity = pool.liquidity) := by
  constructor
  · intro e p' h
    unfold Pool.get_output_amount_mut at h
    split at h
    · simp only [Prod.mk.injEq] at h
      rw [← h.2]
      exact ⟨rfl, rfl, rfl⟩
    · dsimp only at h
      split at h
      · simp only [Prod.mk.injEq] at h
        rw [← h.2]
        exact ⟨rfl, rfl, rfl⟩
      · next s hswap =>
        unfold Pool.swapInner at hswap
        split at h
        · simp only [Prod.mk.injEq] at h
          rw [← h.2]
          exact ⟨rfl, rfl, rfl⟩
        · obtain ⟨hs1, hs2⟩ := v3Swap_price_bounds pool.fee.fee
            pool.sqrt_ratio_x96 pool.tick_current pool.liquidity
            pool.tick_spacing pool.tick_data_provider
            (amt.currency == pool.token0) amt.quotient lim s hb1 hb2 hswap
          rw [get_tick_at_sqrt_ratio_ok s.sqrt_price_x96 hs1 hs2] at h
          dsimp only at h
          exact absurd h (by simp)
  · intro e p' h
    unfold Pool.get_input_amount_mut at h
    split at h
    · simp only [Prod.mk.injEq] at h
      rw [← h.2]
      exact ⟨rfl, rfl, rfl⟩
    · dsimp only at h
      split at h
      · simp only [Prod.mk.injEq] at h
        rw [← h.2]
        exact ⟨rfl, rfl, rfl⟩
      · next s hswap =>
        unfold Pool.swapInner at hswap
        split at h
        · simp only [Prod.mk.injEq] at h
          rw [← h.2]
          exact ⟨rfl, rfl, rfl⟩
        · obtain ⟨hs1, hs2⟩ := v3Swap_price_bounds pool.fee.fee
            pool.sqrt_ratio_x96 pool.tick_current pool.liquidity
            pool.tick_spacing pool.tick_data_provider
            (amt.currency == pool.token1) (-amt.quotient) lim s hb1 hb2 hswap
          rw [get_tick_at_sqrt_ratio_ok s.sqrt_price_x96 hs1 hs2] at h
          dsimp only at h
          exact absurd h (by simp)

/-- Witness for C4: a mutating swap against an out-of-range price limit
fails (with `InvalidSqrtRatio`) and the sample pool's price, tick and
liquidity are untouched. -/
theorem claim_C4_witness :
    ((pool0.get_output_amount_mut ⟨tokA, 100⟩ (some 0)).2).sqrt_ratio_x96
        = pool0.sqrt_ratio_x96 ∧
      ((pool0.get_output_amount_mut ⟨tokA, 100⟩ (some 0)).2).tick_current
          = pool0.tick_current ∧
        ((pool0.get_output_amount_mut ⟨tokA, 100⟩ (some 0)).2).liquidity
          = pool0.liquidity :=
  (claim_C4_no_partial_commit_on_error pool0 ⟨tokA, 100⟩ (some 0)
      (by decide) (by decide)).1 .InvalidSqrtRatio
    ((pool0.get_output_amount_mut ⟨tokA, 100⟩ (some 0)).2) (by rfl)

/-- In a strictly sorted key list, earlier positions hold smaller keys. -/
lemma sorted_getD_lt (keys : List Int) (hs : keys.Pairwise (· < ·))
    (i j : Nat) (hij : i < j) (hj : j < keys.length) :
    keys.getD i 0 < keys.getD j 0 := by
  rw [List.getD_eq_getElem keys 0 (lt_trans hij hj),
    List.getD_eq_getElem keys 0 hj]
  exact List.pairwise_iff_getElem.mp hs i j (lt_trans hij hj) hj hij

/-- The classic binary-search loop, specified on a strictly sorted key
list: an exact hit returns a valid position holding the key; a miss returns
the position splitting the list into keys strictly below and strictly above
the target.  The bracketing hypotheses are the loop invariant. -/
lemma rustBinarySearchGo_spec (keys : List Int) (target : Int)
    (hs : keys.Pairwise (· < ·)) :
    ∀ (fuel left right : Nat), right ≤ keys.length → left ≤ right →
      right - left < fuel →
      (∀ j, j < left → keys.getD j 0 < target) →
      (∀ j, right ≤ j → j < keys.length → target < keys.getD j 0) →
      (∀ pos, rustBinarySearchGo keys target fuel left right = .inl pos →
        pos < keys.length ∧ keys.getD pos 0 = target) ∧
      (∀ pos, rustBinarySearchGo keys target fuel left right = .inr pos →
        pos ≤ keys.length ∧ (∀ j, j < pos → keys.getD j 0 < target) ∧
          (∀ j, pos ≤ j → j < keys.length → target < keys.getD j 0)) := by
  intro fuel
  induction fuel with
  | zero =>
    intro left right _ _ hfuel _ _
    omega
  | succ n ih =>
    intro left right hr hlr hfuel hb ha
    rw [rustBinarySearchGo] at *
    by_cases hlt : left < right
    · rw [if_pos hlt]
      dsimp only
      by_cases h1 : keys.getD (left + (right - left) / 2) 0 < target
      · rw [if_pos h1]
        refine ih (left + (right - left) / 2 + 1) right hr (by omega)
          (by omega) ?_ ha
        intro j hj
        rcases lt_or_ge j (left + (right - left) / 2) with hj2 | hj2
        · exact lt_trans (sorted_getD_lt keys hs j
            (left + (right - left) / 2) hj2 (by omega)) h1
        · have : j = left + (right - left) / 2 := by omega
          rw [this]
          exact h1
      · rw [if_neg h1]
        by_cases h2 : target < keys.getD (left + (right - left) / 2) 0
        · rw [if_pos h2]
          refine ih left (left + (right - left) / 2) (by omega) (by omega)
            (by omega) hb ?_
          intro j hj hjl
          rcases lt_or_ge j right with hj2 | hj2
          · rcases eq_or_lt_of_le hj with hje | hjlt
            · rw [← hje]
              exact h2
            · exact lt_trans h2 (sorted_getD_lt keys hs
                (left + (right - left) / 2) j hjlt (by omega))
          · exact ha j hj2 hjl
        · rw [if_neg h2]
          constructor
          · intro pos hpos
            simp only [Sum.inl.injEq] at hpos
            subst hpos
            exact ⟨by omega, by omega⟩
          · intro pos hpos
            exact absurd hpos (by simp)
    · rw [if_neg hlt]
      constructor
      · intro pos hpos
        exact absurd hpos (by simp)
      · intro pos hpos
        simp only [Sum.inr.injEq] at hpos
        subst hpos
        exact ⟨by omega, hb, fun j hj hjl => ha j (by omega) hjl⟩

/-- The insertion position used by `push_tick`: on a strictly sorted key
list it bounds the keys before it by the target and the target by the keys
from it on. -/
lemma rustBinarySearch_insertion_spec (keys : List Int) (target : Int)
    (hs : keys.Pairwise (· < ·)) :
    (match rustBinarySearch keys target with
        | .inl idx => idx
        | .inr idx => idx)
        ≤ keys.length
      ∧ (∀ j, j < (match rustBinarySearch keys target with
          | .inl idx => idx
          | .inr idx => idx) → keys.getD j 0 ≤ target)
      ∧ (∀ j, (match rustBinarySearch keys target with
            | .inl idx => idx
            | .inr idx => idx) ≤ j → j < keys.length →
          target ≤ keys.getD j 0)
      ∧ (target ∉ keys →
          (∀ j, j < (match rustBinarySearch keys target with
              | .inl idx => idx
              | .inr idx => idx) → keys.getD j 0 < target)
            ∧ (∀ j, (match rustBinarySearch keys target with
                | .inl idx => idx
                | .inr idx => idx) ≤ j → j < keys.length →
              target < keys.getD j 0)) := by
  obtain ⟨hok, herr⟩ := rustBinarySearchGo_spec keys target hs
    (keys.length + 1) 0 keys.length le_rfl (Nat.zero_le _) (by omega)
    (by omega) (by omega)
  unfold rustBinarySearch
  rcases hres : rustBinarySearchGo keys target (keys.length + 1) 0
      keys.length with pos | pos
  · obtain ⟨hlen, heq⟩ := hok pos hres
    refine ⟨le_of_lt hlen, ?_, ?_, ?_⟩
    · intro j hj
      exact le_of_lt (lt_of_lt_of_le (sorted_getD_lt keys hs j pos hj hlen)
        (le_of_eq heq))
    · intro j hj hjl
      rcases eq_or_lt_of_le hj with hje | hjlt
      · rw [← hje, heq]
      · exact le_of_lt (lt_of_le_of_lt (le_of_eq heq.symm)
          (sorted_getD_lt keys hs pos j hjlt hjl))
    · intro hmem
      have hm : keys.getD pos 0 ∈ keys := by
        rw [List.getD_eq_getElem keys 0 hlen]
        exact List.getElem_mem _
      exact absurd (heq ▸ hm) hmem
  · obtain ⟨hlen, hblo, hbhi⟩ := herr pos hres
    exact ⟨hlen, fun j hj => le_of_lt (hblo j hj),
      fun j hj hjl => le_of_lt (hbhi j hj hjl),
      fun _ => ⟨hblo, hbhi⟩⟩

/-- Inserting an element at a position that respects the relation on both
sides preserves `Pairwise`. -/
lemma pairwise_insertIdx {α : Type} (R : α → α → Prop) (t d : α) :
    ∀ (l : List α) (pos : Nat), pos ≤ l.length → l.Pairwise R →
      (∀ j, j < pos → R (l.getD j d) t) →
      (∀ j, pos ≤ j → j < l.length → R t (l.getD j d)) →
      (l.insertIdx pos t).Pairwise R := by
  intro l
  induction l with
  | nil =>
    intro pos hpos _ _ _
    have hz : pos = 0 := by simpa using hpos
    subst hz
    simp
  | cons x xs ihx =>
    intro pos hpos hl hb ha
    cases pos with
    | zero =>
      rw [List.insertIdx_zero]
      refine List.Pairwise.cons ?_ hl
      intro b hb'
      obtain ⟨j, hj, hbj⟩ := List.getElem_of_mem hb'
      have := ha j (Nat.zero_le _) hj
      rwa [List.getD_eq_getElem (x :: xs) d hj, hbj] at this
    | succ m =>
      rw [List.insertIdx_succ_cons]
      cases hl with
      | cons hx hxs =>
        refine List.Pairwise.cons ?_ ?_
        · intro b hb'
          rw [List.mem_insertIdx (by simpa using hpos)] at hb'
          rcases hb' with hbt | hbx
          · rw [hbt]
            have := hb 0 (Nat.succ_pos m)
            simpa using this
          · exact hx b hbx
        · refine ihx m (by simpa using hpos) hxs ?_ ?_
          · intro j hj
            have := hb (j + 1) (by omega)
            simpa using this
          · intro j hj hjl
            have := ha (j + 1) (by omega) (by simpa using hjl)
            simpa using this

/-- C3 counterexample: the claim as stated is false.  On the strictly
increasing provider [10, 20], `update_tick` at position 0 with a tick of
index 30 and nonzero `liquidity_net` overwrites in place, producing
[30, 20] — not strictly increasing; and on the provider [10], `push_tick`
of another index-10 tick inserts at the binary-search hit, producing two
entries with index 10 — a duplicate. -/
theorem claim_C3_counterexample :
    StrictlyIncreasing
        (TickListDataProvider.new [⟨10, 100, 10⟩, ⟨20, 200, 20⟩] 1).ticks
      ∧ ¬ StrictlyIncreasing
        ((TickListDataProvider.new [⟨10, 100, 10⟩, ⟨20, 200, 20⟩] 1
          ).update_tick 0 ⟨30, 1, 5⟩).2.ticks
      ∧ StrictlyIncreasing (TickListDataProvider.new [⟨10, 100, 10⟩] 1).ticks
      ∧ ((TickListDataProvider.new [⟨10, 100, 10⟩] 1).push_tick
          ⟨10, 5, 5⟩).2.ticks = [⟨10, 5, 5⟩, ⟨10, 100, 10⟩] := by
  refine ⟨by decide, by decide, by decide, by decide⟩

/-- Positions of the key list are positions of the tick list. -/
lemma getD_map_index (l : List Tick) (j : Nat) (hj : j < l.length) :
    (l.map (·.index)).getD j 0 = (l.getD j ⟨0, 0, 0⟩).index := by
  rw [List.getD_eq_getElem _ 0 (by simpa using hj),
    List.getD_eq_getElem _ _ hj, List.getElem_map]

/-- C3 amended: on a strictly increasing provider, `remove_tick` preserves
strict ordering; an `update_tick` whose tick has `liquidity_net == 0`
removes the entry at the given position (so it also preserves strict
ordering); `push_tick` inserts at the binary-search position, which keeps
the entries nondecreasing by index, and keeps them strictly increasing
whenever the pushed index is not already present.  (As the counterexample
shows, an `update_tick` with nonzero `liquidity_net` overwrites in place
without re-sorting and can break the ordering, and `push_tick` of an
existing index duplicates it.) -/
theorem claim_C3_bounded_mutation_amended (p : TickListDataProvider)
    (hs : StrictlyIncreasing p.ticks) :
    (∀ (i : Nat) (sp : Int),
        StrictlyIncreasing (p.remove_tick i sp).2.ticks) ∧
      (∀ (i : Nat) (t : Tick), t.liquidity_net = 0 →
        (p.update_tick i t).2.ticks = p.ticks.eraseIdx i ∧
          StrictlyIncreasing (p.update_tick i t).2.ticks) ∧
      (∀ t : Tick, Nondecreasing (p.push_tick t).2.ticks) ∧
      (∀ t : Tick, (∀ u ∈ p.ticks, u.index ≠ t.index) →
        StrictlyIncreasing (p.push_tick t).2.ticks) := by
  have hkeys : (p.ticks.map (·.index)).Pairwise (· < ·) :=
    List.pairwise_map.mpr hs
  refine ⟨?_, ?_, ?_, ?_⟩
  · intro i sp
    unfold TickListDataProvider.remove_tick
    dsimp only
    split
    · exact hs
    · exact List.Pairwise.sublist (List.eraseIdx_sublist p.ticks i) hs
  · intro i t ht
    unfold TickListDataProvider.update_tick
    split
    · next hoob =>
      rw [List.eraseIdx_of_length_le hoob]
      exact ⟨rfl, hs⟩
    · exact ⟨rfl, List.Pairwise.sublist (List.eraseIdx_sublist p.ticks i) hs⟩
  · intro t
    unfold TickListDataProvider.push_tick
    dsimp only
    obtain ⟨hlen, hlo, hhi, -⟩ := rustBinarySearch_insertion_spec
      (p.ticks.map (·.index)) t.index hkeys
    refine pairwise_insertIdx _ t ⟨0, 0, 0⟩ p.ticks _
      (by simpa using hlen) (hs.imp le_of_lt) ?_ ?_
    · intro j hj
      have hjl : j < p.ticks.length := by
        have := by simpa using hlen
        omega
      have := hlo j hj
      rwa [getD_map_index p.ticks j hjl] at this
    · intro j hj hjl
      have := hhi j hj (by simpa using hjl)
      rwa [getD_map_index p.ticks j hjl] at this
  · intro t hfresh
    unfold TickListDataProvider.push_tick
    dsimp only
    obtain ⟨hlen, -, -, hforce⟩ := rustBinarySearch_insertion_spec
      (p.ticks.map (·.index)) t.index hkeys
    have hnm : t.index ∉ p.ticks.map (·.index) := by
      intro hmem
      obtain ⟨u, hu, hue⟩ := List.mem_map.mp hmem
      exact hfresh u hu hue
    obtain ⟨hlo, hhi⟩ := hforce hnm
    refine pairwise_insertIdx _ t ⟨0, 0, 0⟩ p.ticks _
      (by simpa using hlen) hs ?_ ?_
    · intro j hj
      have hjl : j < p.ticks.length := by
        have := by simpa using hlen
        omega
      have := hlo j hj
      rwa [getD_map_index p.ticks j hjl] at this
    · intro j hj hjl
      have := hhi j hj (by simpa using hjl)
      rwa [getD_map_index p.ticks j hjl] at this

/-- Witness for the amended C3 at a concrete strictly increasing
provider. -/
theorem claim_C3_witness :
    StrictlyIncreasing ((⟨[⟨10, 1, 1⟩, ⟨20, 1, -1⟩]⟩ :
        TickListDataProvider).remove_tick 0 1).2.ticks ∧
      ((⟨[⟨10, 1, 1⟩, ⟨20, 1, -1⟩]⟩ :
            TickListDataProvider).update_tick 1 ⟨20, 0, 0⟩).2.ticks
          = [⟨10, 1, 1⟩, ⟨20, 1, -1⟩].eraseIdx 1 ∧
        Nondecreasing ((⟨[⟨10, 1, 1⟩, ⟨20, 1, -1⟩]⟩ :
          TickListDataProvider).push_tick ⟨15, 2, 2⟩).2.ticks ∧
          StrictlyIncreasing ((⟨[⟨10, 1, 1⟩, ⟨20, 1, -1⟩]⟩ :
            TickListDataProvider).push_tick ⟨15, 2, 2⟩).2.ticks :=
  ⟨(claim_C3_bounded_mutation_amended ⟨[⟨10, 1, 1⟩, ⟨20, 1, -1⟩]⟩
      (by decide)).1 0 1,
    ((claim_C3_bounded_mutation_amended ⟨[⟨10, 1, 1⟩, ⟨20, 1, -1⟩]⟩
      (by decide)).2.1 1 ⟨20, 0, 0⟩ rfl).1,
    (claim_C3_bounded_mutation_amended ⟨[⟨10, 1, 1⟩, ⟨20, 1, -1⟩]⟩
      (by decide)).2.2.1 ⟨15, 2, 2⟩,
    (claim_C3_bounded_mutation_amended ⟨[⟨10, 1, 1⟩, ⟨20, 1, -1⟩]⟩
      (by decide)).2.2.2 ⟨15, 2, 2⟩ (by decide)⟩

/-- `listMax?` over a nonempty list is the `foldl`ed maximum. -/
lemma listMax?_cons (x : Int) (xs : List Int) :
    listMax? (x :: xs) = some (xs.foldl max x) := by
  show (xs.foldl _ (some x)) = _
  induction xs generalizing x with
  | nil => rfl
  | cons y ys ih => exact ih (max x y)

/-- `listMin?` over a nonempty list is the `foldl`ed minimum. -/
lemma listMin?_cons (x : Int) (xs : List Int) :
    listMin? (x :: xs) = some (xs.foldl min x) := by
  show (xs.foldl _ (some x)) = _
  induction xs generalizing x with
  | nil => rfl
  | cons y ys ih => exact ih (min x y)

/-- The folded maximum is an element or the seed. -/
lemma foldl_max_mem (l : List Int) : ∀ a : Int,
    l.foldl max a = a ∨ l.foldl max a ∈ l := by
  induction l with
  | nil => exact fun a => Or.inl rfl
  | cons x xs ih =>
    intro a
    rw [List.foldl_cons]
    rcases ih (max a x) with h | h
    · rcases max_choice a x with hm | hm
      · exact Or.inl (by rw [h, hm])
      · exact Or.inr (by rw [h, hm]; exact List.mem_cons_self x xs)
    · exact Or.inr (List.mem_cons_of_mem x h)

/-- The folded maximum bounds the seed and every element. -/
lemma foldl_max_le (l : List Int) : ∀ a : Int,
    a ≤ l.foldl max a ∧ ∀ x ∈ l, x ≤ l.foldl max a := by
  induction l with
  | nil => exact fun a => ⟨le_refl a, by simp⟩
  | cons y ys ih =>
    intro a
    rw [List.foldl_cons]
    obtain ⟨h1, h2⟩ := ih (max a y)
    refine ⟨le_trans (le_max_left a y) h1, ?_⟩
    intro x hx
    rcases List.mem_cons.mp hx with hxy | hxy
    · subst hxy
      exact le_trans (le_max_right a x) h1
    · exact h2 x hxy

/-- The folded minimum is an element or the seed. -/
lemma foldl_min_mem (l : List Int) : ∀ a : Int,
    l.foldl min a = a ∨ l.foldl min a ∈ l := by
  induction l with
  | nil => exact fun a => Or.inl rfl
  | cons x xs ih =>
    intro a
    rcases ih (min a x) with h | h
    · rcases min_choice a x with hm | hm
      · exact Or.inl (by rw [List.foldl_cons, h, hm])
      · exact Or.inr (by rw [List.foldl_cons, h, hm]; exact
          List.mem_cons_self x xs)
    · exact Or.inr (List.mem_cons_of_mem x h)

/-- The folded minimum bounds the seed and every element from below. -/
lemma foldl_min_le (l : List Int) : ∀ a : Int,
    l.foldl min a ≤ a ∧ ∀ x ∈ l, l.foldl min a ≤ x := by
  induction l with
  | nil => exact fun a => ⟨le_refl a, by simp⟩
  | cons y ys ih =>
    intro a
    rw [List.foldl_cons]
    obtain ⟨h1, h2⟩ := ih (min a y)
    refine ⟨le_trans h1 (min_le_left a y), ?_⟩
    intro x hx
    rcases List.mem_cons.mp hx with hxy | hxy
    · subst hxy
      exact le_trans h1 (min_le_right a x)
    · exact h2 x hxy

/-- Characterization of `listMax?`: `some m` names a member that bounds the
list, `none` means the list is empty. -/
lemma listMax?_spec (l : List Int) :
    (listMax? l = none ↔ l = []) ∧
      ∀ m, listMax? l = some m → m ∈ l ∧ ∀ x ∈ l, x ≤ m := by
  cases l with
  | nil => exact ⟨by simp [listMax?], by simp [listMax?]⟩
  | cons x xs =>
    rw [listMax?_cons]
    refine ⟨by simp, ?_⟩
    intro m hm
    simp only [Option.some.injEq] at hm
    subst hm
    obtain ⟨h1, h2⟩ := foldl_max_le xs x
    rcases foldl_max_mem xs x with h | h
    · exact ⟨by rw [h]; exact List.mem_cons_self x xs, fun y hy =>
        (List.mem_cons.mp hy).elim (fun e => e ▸ h1) (h2 y)⟩
    · exact ⟨List.mem_cons_of_mem x h, fun y hy =>
        (List.mem_cons.mp hy).elim (fun e => e ▸ h1) (h2 y)⟩

/-- Characterization of `listMin?`, dual to `listMax?_spec`. -/
lemma listMin?_spec (l : List Int) :
    (listMin? l = none ↔ l = []) ∧
      ∀ m, listMin? l = some m → m ∈ l ∧ ∀ x ∈ l, m ≤ x := by
  cases l with
  | nil => exact ⟨by simp [listMin?], by simp [listMin?]⟩
  | cons x xs =>
    rw [listMin?_cons]
    refine ⟨by simp, ?_⟩
    intro m hm
    simp only [Option.some.injEq] at hm
    subst hm
    obtain ⟨h1, h2⟩ := foldl_min_le xs x
    rcases foldl_min_mem xs x with h | h
    · exact ⟨by rw [h]; exact List.mem_cons_self x xs, fun y hy =>
        (List.mem_cons.mp hy).elim (fun e => e ▸ h1) (h2 y)⟩
    · exact ⟨List.mem_cons_of_mem x h, fun y hy =>
        (List.mem_cons.mp hy).elim (fun e => e ▸ h1) (h2 y)⟩

/-- Two lists with the same members have the same `listMax?`. -/
lemma listMax?_eq_of_mem_iff (l1 l2 : List Int)
    (h : ∀ x, x ∈ l1 ↔ x ∈ l2) : listMax? l1 = listMax? l2 := by
  obtain ⟨hn1, hs1⟩ := listMax?_spec l1
  obtain ⟨hn2, hs2⟩ := listMax?_spec l2
  rcases e1 : listMax? l1 with - | m1 <;> rcases e2 : listMax? l2 with - | m2
  · rfl
  · obtain ⟨hm2, -⟩ := hs2 m2 e2
    have : l1 = [] := hn1.mp e1
    exact absurd ((h m2).mpr hm2) (by simp [this])
  · obtain ⟨hm1, -⟩ := hs1 m1 e1
    have : l2 = [] := hn2.mp e2
    exact absurd ((h m1).mp hm1) (by simp [this])
  · obtain ⟨hm1, hb1⟩ := hs1 m1 e1
    obtain ⟨hm2, hb2⟩ := hs2 m2 e2
    exact congrArg some (le_antisymm (hb2 m1 ((h m1).mp hm1))
      (hb1 m2 ((h m2).mpr hm2)))

/-- Two lists with the same members have the same `listMin?`. -/
lemma listMin?_eq_of_mem_iff (l1 l2 : List Int)
    (h : ∀ x, x ∈ l1 ↔ x ∈ l2) : listMin? l1 = listMin? l2 := by
  obtain ⟨hn1, hs1⟩ := listMin?_spec l1
  obtain ⟨hn2, hs2⟩ := listMin?_spec l2
  rcases e1 : listMin? l1 with - | m1 <;> rcases e2 : listMin? l2 with - | m2
  · rfl
  · obtain ⟨hm2, -⟩ := hs2 m2 e2
    have : l1 = [] := hn1.mp e1
    exact absurd ((h m2).mpr hm2) (by simp [this])
  · obtain ⟨hm1, -⟩ := hs1 m1 e1
    have : l2 = [] := hn2.mp e2
    exact absurd ((h m1).mp hm1) (by simp [this])
  · obtain ⟨hm1, hb1⟩ := hs1 m1 e1
    obtain ⟨hm2, hb2⟩ := hs2 m2 e2
    exact congrArg some (le_antisymm (hb1 m2 ((h m2).mpr hm2))
      (hb2 m1 ((h m1).mp hm1)))

/-- A monotone map commutes with `listMax?`. -/
lemma listMax?_map_mono (f : Int → Int)
    (hf : ∀ a b : Int, a ≤ b → f a ≤ f b) (l : List Int) :
    listMax? (l.map f) = (listMax? l).map f := by
  have hmax : ∀ a b : Int, f (max a b) = max (f a) (f b) := by
    intro a b
    rcases le_total a b with hab | hab
    · rw [max_eq_right hab, max_eq_right (hf a b hab)]
    · rw [max_eq_left hab, max_eq_left (hf b a hab)]
  cases l with
  | nil => rfl
  | cons x xs =>
    rw [List.map_cons, listMax?_cons, listMax?_cons]
    have : ∀ (ys : List Int) (a : Int),
        (ys.map f).foldl max (f a) = f (ys.foldl max a) := by
      intro ys
      induction ys with
      | nil => exact fun a => rfl
      | cons y ys ihy =>
        intro a
        rw [List.map_cons, List.foldl_cons, List.foldl_cons, ← hmax,
          ihy (max a y)]
    rw [this xs x, Option.map_some']

/-- A monotone map commutes with `listMin?`. -/
lemma listMin?_map_mono (f : Int → Int)
    (hf : ∀ a b : Int, a ≤ b → f a ≤ f b) (l : List Int) :
    listMin? (l.map f) = (listMin? l).map f := by
  have hmin : ∀ a b : Int, f (min a b) = min (f a) (f b) := by
    intro a b
    rcases le_total a b with hab | hab
    · rw [min_eq_left hab, min_eq_left (hf a b hab)]
    · rw [min_eq_right hab, min_eq_right (hf b a hab)]
  cases l with
  | nil => rfl
  | cons x xs =>
    rw [List.map_cons, listMin?_cons, listMin?_cons]
    have : ∀ (ys : List Int) (a : Int),
        (ys.map f).foldl min (f a) = f (ys.foldl min a) := by
      intro ys
      induction ys with
      | nil => exact fun a => rfl
      | cons y ys ihy =>
        intro a
        rw [List.map_cons, List.foldl_cons, List.foldl_cons, ← hmin,
          ihy (min a y)]
    rw [this xs x, Option.map_some']

/-- A bit of the word map built by `TickMap::new` is set exactly when some
snapshot tick compresses to that word and bit (stated for any starting
map). -/
lemma buildBitmap_go_testBit (tick_spacing : Int) :
    ∀ (l : List Tick) (f : Int → Nat) (w : Int) (p : Nat), p < 256 →
      (((l.foldl (buildBitmapStep tick_spacing) f) w).testBit p = true ↔
        ((f w).testBit p = true ∨
          ∃ t ∈ l, t.index / tick_spacing = w * 256 + p)) := by
  intro l
  induction l with
  | nil =>
    intro f w p _
    simp
  | cons t ts ih =>
    intro f w p hp
    rw [List.foldl_cons, ih (buildBitmapStep tick_spacing f t) w p hp]
    unfold buildBitmapStep
    have hdec : t.index / tick_spacing
        = 256 * wordOf (t.index / tick_spacing)
          + (bitOf (t.index / tick_spacing) : Int) ∧
        (bitOf (t.index / tick_spacing) : Int) < 256 ∧
        0 ≤ (bitOf (t.index / tick_spacing) : Int) := by
      unfold wordOf bitOf
      omega
    by_cases hw : w = wordOf (t.index / tick_spacing)
    · rw [if_pos hw]
      rw [Nat.shiftLeft_eq, one_mul, Nat.testBit_or, Nat.testBit_two_pow]
      constructor
      · intro h
        rcases h with h | h
        · rcases Bool.or_eq_true_iff.mp h with h' | h'
          · exact Or.inl (by rw [hw]; exact h')
          · refine Or.inr ⟨t, List.mem_cons_self t ts, ?_⟩
            have hbp : bitOf (t.index / tick_spacing) = p :=
              of_decide_eq_true h'
            omega
        · exact Or.inr (by
            obtain ⟨u, hu, hue⟩ := h
            exact ⟨u, List.mem_cons_of_mem t hu, hue⟩)
      · intro h
        rcases h with h | h
        · refine Or.inl (Bool.or_eq_true_iff.mpr (Or.inl ?_))
          rw [← hw]
          exact h
        · obtain ⟨u, hu, hue⟩ := h
          rcases List.mem_cons.mp hu with hut | hut
          · subst hut
            refine Or.inl (Bool.or_eq_true_iff.mpr (Or.inr ?_))
            refine decide_eq_true ?_
            omega
          · exact Or.inr ⟨u, hut, hue⟩
    · rw [if_neg hw]
      constructor
      · intro h
        rcases h with h | h
        · exact Or.inl h
        · obtain ⟨u, hu, hue⟩ := h
          exact Or.inr ⟨u, List.mem_cons_of_mem t hu, hue⟩
      · intro h
        rcases h with h | h
        · exact Or.inl h
        · obtain ⟨u, hu, hue⟩ := h
          rcases List.mem_cons.mp hu with hut | hut
          · subst hut
            refine absurd (show w = wordOf (u.index / tick_spacing) by
              unfold wordOf
              omega) hw
          · exact Or.inr ⟨u, hut, hue⟩

/-- A bit of the bitmap built from a snapshot is set exactly when some
snapshot tick compresses to that word and bit. -/
lemma buildBitmap_testBit (ticks : List Tick) (tick_spacing : Int) (w : Int)
    (p : Nat) (hp : p < 256) :
    (((buildBitmap ticks tick_spacing) w).testBit p = true ↔
      ∃ t ∈ ticks, t.index / tick_spacing = w * 256 + p) := by
  unfold buildBitmap
  rw [buildBitmap_go_testBit tick_spacing ticks (fun _ => 0) w p hp]
  simp

/-- Folding insertions over ticks none of which carry the queried index
leaves the map unchanged there. -/
lemma buildInner_go_not_mem :
    ∀ (l : List Tick) (f : Int → Option Tick) (i : Int),
      (∀ t ∈ l, t.index ≠ i) → (l.foldl buildInnerStep f) i = f i := by
  intro l
  induction l with
  | nil => exact fun f i _ => rfl
  | cons t ts ih =>
    intro f i h
    rw [List.foldl_cons, ih (buildInnerStep f t) i
      (fun u hu => h u (List.mem_cons_of_mem t hu))]
    unfold buildInnerStep
    exact if_neg (fun he => h t (List.mem_cons_self t ts) he.symm)

/-- On a snapshot with distinct indices, the map built by `TickMap::new`
sends a present index to its unique tick. -/
lemma buildInner_go_mem :
    ∀ (l : List Tick) (f : Int → Option Tick) (i : Int) (t : Tick),
      (l.map (·.index)).Nodup → t ∈ l → t.index = i →
      (l.foldl buildInnerStep f) i = some t := by
  intro l
  induction l with
  | nil =>
    intro _ _ _ _ ht _
    exact absurd ht (List.not_mem_nil _)
  | cons u us ih =>
    intro f i t hnd ht hti
    rcases List.mem_cons.mp ht with htu | htu
    · subst htu
      rw [List.map_cons, List.nodup_cons] at hnd
      rw [List.foldl_cons, buildInner_go_not_mem us (buildInnerStep f t) i
        ?_]
      · unfold buildInnerStep
        rw [if_pos hti.symm]
      · intro v hv hvi
        exact hnd.1 (List.mem_map.mpr ⟨v, hv, by rw [hvi, hti]⟩)
    · rw [List.map_cons, List.nodup_cons] at hnd
      rw [List.foldl_cons]
      exact ih (buildInnerStep f u) i t hnd.2 htu hti

/-- `get_tick` equivalence: on a snapshot with distinct indices, the sorted
list's lookup and the hash map built from the same snapshot agree — the
same tick on success and failure on the same absent indices. -/
lemma getTick_equiv (ticks : List Tick) (tick_spacing : Int)
    (hnd : (ticks.map (·.index)).Nodup) (i : Int) :
    (tickListGetTick (TickListDataProvider.new ticks tick_spacing).ticks
        i).toOption
      = buildInner ticks i := by
  have hperm : (TickListDataProvider.new ticks tick_spacing).ticks.Perm
      ticks := List.perm_insertionSort tickLE ticks
  unfold tickListGetTick
  by_cases hmem : ∃ t ∈ ticks, t.index = i
  · obtain ⟨t, ht, hti⟩ := hmem
    have h1 : buildInner ticks i = some t :=
      buildInner_go_mem ticks (fun _ => none) i t hnd ht hti
    rcases hf : (TickListDataProvider.new ticks tick_spacing).ticks.find?
        (fun u => u.index == i) with - | u
    · rw [List.find?_eq_none] at hf
      have htm : t ∈ (TickListDataProvider.new ticks tick_spacing).ticks :=
        hperm.mem_iff.mpr ht
      exact absurd (by simpa using hf t htm) (by simp [hti])
    · have hu1 : u.index = i := by
        have := List.find?_some hf
        simpa using this
      have hu3 : u ∈ ticks :=
        hperm.mem_iff.mp (List.mem_of_find?_eq_some hf)
      have hut : u = t :=
        List.inj_on_of_nodup_map hnd hu3 ht (by rw [hu1, hti])
      rw [h1, hf, hut]
      rfl
  · have h1 : buildInner ticks i = none := by
      unfold buildInner
      exact buildInner_go_not_mem ticks (fun _ => none) i
        (fun t ht hti => hmem ⟨t, ht, hti⟩)
    rcases hf : (TickListDataProvider.new ticks tick_spacing).ticks.find?
        (fun u => u.index == i) with - | u
    · rw [h1, hf]
      rfl
    · have hu1 : u.index = i := by
        have := List.find?_some hf
        simpa using this
      have hu3 : u ∈ ticks :=
        hperm.mem_iff.mp (List.mem_of_find?_eq_some hf)
      exact absurd ⟨u, hu3, hu1⟩ hmem

/-- Downward (`lte = true`) candidate equivalence: the maximal in-word
initialized tick at-or-below the query found by scanning the sorted list is
the image of the maximal masked bit of the bitmap word. -/
lemma next_candidates_eq_lte (ticks : List Tick) (tick_spacing : Int)
    (hsp : 0 < tick_spacing)
    (halign : ∀ t ∈ ticks, t.index % tick_spacing = 0) (c : Int) :
    listMax? (((TickListDataProvider.new ticks tick_spacing).ticks.filter
        (fun t => wordOf c * 256 ≤ t.index / tick_spacing ∧
          t.index / tick_spacing ≤ c)).map (·.index))
      = (listMax? (((List.range 256).filter (fun p => p ≤ bitOf c ∧
          (buildBitmap ticks tick_spacing (wordOf c)).testBit p)).map
            (fun (p : Nat) => (p : Int)))).map
          (fun pi => (wordOf c * 256 + pi) * tick_spacing) := by
  have halign' : ∀ t ∈ ticks,
      (t.index / tick_spacing) * tick_spacing = t.index :=
    fun t ht => Int.ediv_mul_cancel (Int.dvd_of_emod_eq_zero (halign t ht))
  have hpm : ∀ u : Tick,
      u ∈ (TickListDataProvider.new ticks tick_spacing).ticks ↔ u ∈ ticks :=
    fun u => (List.perm_insertionSort tickLE ticks).mem_iff
  unfold wordOf bitOf
  rw [← listMax?_map_mono
    (fun pi => (c / 256 * 256 + pi) * tick_spacing)
    (fun a b hab => mul_le_mul_of_nonneg_right
      (add_le_add_left hab (c / 256 * 256)) (le_of_lt hsp))]
  apply listMax?_eq_of_mem_iff
  intro x
  rw [List.map_map]
  simp only [List.mem_map, List.mem_filter, List.mem_range,
    decide_eq_true_eq, Function.comp_apply]
  constructor
  · rintro ⟨t, ⟨ht, hc1, hc2⟩, rfl⟩
    refine ⟨(t.index / tick_spacing - c / 256 * 256).toNat,
      ⟨?_, ?_, ?_⟩, ?_⟩
    · omega
    · omega
    · refine (buildBitmap_testBit ticks tick_spacing (c / 256) _
        (by omega)).mpr ⟨t, (hpm t).mp ht, by omega⟩
    · rw [show (((t.index / tick_spacing - c / 256 * 256).toNat : Int))
          = t.index / tick_spacing - c / 256 * 256 by omega]
      rw [show (c / 256 * 256 + (t.index / tick_spacing - c / 256 * 256))
          = t.index / tick_spacing by ring]
      exact halign' t ((hpm t).mp ht)
  · rintro ⟨p, ⟨hp256, hpb, htb⟩, rfl⟩
    obtain ⟨t, ht, hct⟩ := (buildBitmap_testBit ticks tick_spacing
      (c / 256) p hp256).mp htb
    refine ⟨t, ⟨(hpm t).mpr ht, by omega, by omega⟩, ?_⟩
    rw [show (c / 256 * 256 + (p : Int)) = t.index / tick_spacing by omega]
    exact (halign' t ht).symm

/-- Upward (`lte = false`) candidate equivalence: the minimal in-word
initialized tick strictly above the query found by scanning the sorted
list is the image of the minimal masked bit of the bitmap word of
`compressed + 1`. -/
lemma next_candidates_eq_gt (ticks : List Tick) (tick_spacing : Int)
    (hsp : 0 < tick_spacing)
    (halign : ∀ t ∈ ticks, t.index % tick_spacing = 0) (c : Int) :
    listMin? (((TickListDataProvider.new ticks tick_spacing).ticks.filter
        (fun t => c < t.index / tick_spacing ∧
          t.index / tick_spacing ≤ wordOf (c + 1) * 256 + 255)).map
            (·.index))
      = (listMin? (((List.range 256).filter (fun p => bitOf (c + 1) ≤ p ∧
          (buildBitmap ticks tick_spacing (wordOf (c + 1))).testBit p)).map
            (fun (p : Nat) => (p : Int)))).map
          (fun pi => (wordOf (c + 1) * 256 + pi) * tick_spacing) := by
  have halign' : ∀ t ∈ ticks,
      (t.index / tick_spacing) * tick_spacing = t.index :=
    fun t ht => Int.ediv_mul_cancel (Int.dvd_of_emod_eq_zero (halign t ht))
  have hpm : ∀ u : Tick,
      u ∈ (TickListDataProvider.new ticks tick_spacing).ticks ↔ u ∈ ticks :=
    fun u => (List.perm_insertionSort tickLE ticks).mem_iff
  unfold wordOf bitOf
  rw [← listMin?_map_mono
    (fun pi => ((c + 1) / 256 * 256 + pi) * tick_spacing)
    (fun a b hab => mul_le_mul_of_nonneg_right
      (add_le_add_left hab ((c + 1) / 256 * 256)) (le_of_lt hsp))]
  apply listMin?_eq_of_mem_iff
  intro x
  rw [List.map_map]
  simp only [List.mem_map, List.mem_filter, List.mem_range,
    decide_eq_true_eq, Function.comp_apply]
  constructor
  · rintro ⟨t, ⟨ht, hc1, hc2⟩, rfl⟩
    refine ⟨(t.index / tick_spacing - (c + 1) / 256 * 256).toNat,
      ⟨?_, ?_, ?_⟩, ?_⟩
    · omega
    · omega
    · refine (buildBitmap_testBit ticks tick_spacing ((c + 1) / 256) _
        (by omega)).mpr ⟨t, (hpm t).mp ht, by omega⟩
    · rw [show (((t.index / tick_spacing
            - (c + 1) / 256 * 256).toNat : Int))
          = t.index / tick_spacing - (c + 1) / 256 * 256 by omega]
      rw [show ((c + 1) / 256 * 256
            + (t.index / tick_spacing - (c + 1) / 256 * 256))
          = t.index / tick_spacing by ring]
      exact halign' t ((hpm t).mp ht)
  · rintro ⟨p, ⟨hp256, hpb, htb⟩, rfl⟩
    obtain ⟨t, ht, hct⟩ := (buildBitmap_testBit ticks tick_spacing
      ((c + 1) / 256) p hp256).mp htb
    refine ⟨t, ⟨(hpm t).mpr ht, by omega, by omega⟩, ?_⟩
    rw [show ((c + 1) / 256 * 256 + (p : Int))
        = t.index / tick_spacing by omega]
    exact (halign' t ht).symm

/-- `next_initialized_tick_within_one_word` equivalence: on an aligned
snapshot, the sorted-list scan and the bitmap word search return the same
(tick, initialized) pair for every query. -/
lemma nextInit_equiv (ticks : List Tick) (tick_spacing : Int)
    (hsp : 0 < tick_spacing)
    (halign : ∀ t ∈ ticks, t.index % tick_spacing = 0)
    (tick : Int) (lte : Bool) :
    tickListNextInit (TickListDataProvider.new ticks tick_spacing).ticks
        tick lte tick_spacing
      = tickBitMapNextInit (buildBitmap ticks tick_spacing) tick lte
        tick_spacing := by
  unfold tickListNextInit tickBitMapNextInit
  cases lte with
  | false =>
    simp only [Bool.false_eq_true, if_false]
    rw [next_candidates_eq_gt ticks tick_spacing hsp halign
      (tick / tick_spacing)]
    rcases listMin? (((List.range 256).filter
        (fun p => bitOf (tick / tick_spacing + 1) ≤ p ∧
          (buildBitmap ticks tick_spacing
            (wordOf (tick / tick_spacing + 1))).testBit p)).map
        (fun (p : Nat) => (p : Int))) with - | p
    · rfl
    · rfl
  | true =>
    simp only [if_true]
    rw [next_candidates_eq_lte ticks tick_spacing hsp halign
      (tick / tick_spacing)]
    rcases listMax? (((List.range 256).filter
        (fun p => p ≤ bitOf (tick / tick_spacing) ∧
          (buildBitmap ticks tick_spacing
            (wordOf (tick / tick_spacing))).testBit p)).map
        (fun (p : Nat) => (p : Int))) with - | p
    · rfl
    · rfl

/-- A snapshot that is aligned, nonzero-spaced and conservation-balanced
passes the validation pass. -/
lemma validate_list_ok (ticks : List Tick) (tick_spacing : Int)
    (hsp : 0 < tick_spacing)
    (halign : ∀ t ∈ ticks, t.index % tick_spacing = 0)
    (hsum : (ticks.map (·.liquidity_net)).sum = 0) :
    validate_list ticks tick_spacing = .ok () := by
  have h2 : ticks.all (fun t => t.index % tick_spacing == 0) = true :=
    List.all_eq_true.mpr (fun t ht => by simpa using halign t ht)
  unfold validate_list
  rw [if_neg (by omega), if_neg (by simp [h2]), if_neg (by simp [hsum])]

/-- C1: built from one validated snapshot (aligned to the spacing, distinct
indices, conserved liquidity), the list-backed index and the map-backed
index are observationally equal: `get_tick` returns the same tick on
success and fails on the same absent indices, and
`next_initialized_tick_within_one_word` returns the same
(tick, initialized) pair for every query. -/
theorem claim_C1_index_equivalence (ticks : List Tick) (tick_spacing : Int)
    (hsp : 0 < tick_spacing)
    (halign : ∀ t ∈ ticks, t.index % tick_spacing = 0)
    (hnd : (ticks.map (·.index)).Nodup)
    (hsum : (ticks.map (·.liquidity_net)).sum = 0) :
    (∀ i : Int,
        (tickListGetTick (TickListDataProvider.new ticks tick_spacing).ticks
            i).toOption
          = (tickMapGetTickOfSnapshot ticks tick_spacing i).toOption) ∧
      (∀ (tick : Int) (lte : Bool),
        Except.ok (tickListNextInit
            (TickListDataProvider.new ticks tick_spacing).ticks tick lte
            tick_spacing)
          = tickMapNextOfSnapshot ticks tick_spacing tick lte) := by
  have hval := validate_list_ok ticks tick_spacing hsp halign hsum
  have hnew : TickMap.new ticks tick_spacing
      = .ok ⟨buildBitmap ticks tick_spacing, buildInner ticks,
        tick_spacing⟩ := by
    unfold TickMap.new
    rw [hval]
  constructor
  · intro i
    unfold tickMapGetTickOfSnapshot
    rw [hnew, getTick_equiv ticks tick_spacing hnd i]
    unfold TickMap.get_tick
    rcases hbi : buildInner ticks i with - | t
    · dsimp only
      rw [hbi]
      rfl
    · dsimp only
      rw [hbi]
      rfl
  · intro tick lte
    unfold tickMapNextOfSnapshot
    rw [hnew, nextInit_equiv ticks tick_spacing hsp halign tick lte]
    rfl

/-- Witness for C1 at a concrete three-tick snapshot spanning several
words. -/
theorem claim_C1_witness :
    (∀ i : Int,
        (tickListGetTick (TickListDataProvider.new sampleTicks 1).ticks
            i).toOption
          = (tickMapGetTickOfSnapshot sampleTicks 1 i).toOption) ∧
      (∀ (tick : Int) (lte : Bool),
        Except.ok (tickListNextInit
            (TickListDataProvider.new sampleTicks 1).ticks tick lte 1)
          = tickMapNextOfSnapshot sampleTicks 1 tick lte) :=
  claim_C1_index_equivalence sampleTicks 1 (by decide) (by decide)
    (by decide) (by decide)

end UniswapV3
